import Mathlib

/-!
# Verification of the valrep pipeline core

A shallow embedding of the repository's core (`valrep/modifiers.py`, the
skip-if-done logic of `steps/madgraph/step.py` and `steps/delphes_hepmc/step.py`,
and the pipeline-runner contract of the specification), together with proofs
deciding the specification claims.

Conventions of the embedding:
* Python `dict`s (which preserve insertion order) become association lists.
* Python floats are modelled by their exact rational values; every float the
  claims exercise (integers below 2^53, 125.5, 13.0, ...) is exactly
  representable as an IEEE double, so the double equals the rational.
* Machine formatting (`f"{v:.10g}"`, `f"{v:.6g}"`) is modelled by an explicit
  significant-digit rendering over ℤ/ℕ arithmetic (`pyFormatG`).
* Fallible Python code (uncaught exceptions) returns `Except`/`Option`.
-/

deriving instance DecidableEq for Except

namespace Valrep

/-! ## Character and digit utilities -/

/-- Strip trailing `'0'` characters, the model of Python `s.rstrip("0")`. -/
def stripTrailingZeros (l : List Char) : List Char :=
  (l.reverse.dropWhile (fun c => c = '0')).reverse

/-- The decimal digit character for `d < 10` (total, clamping at `'9'`). -/
def digitChar10 (d : ℕ) : Char :=
  if d = 0 then '0' else if d = 1 then '1' else if d = 2 then '2' else if d = 3 then '3'
  else if d = 4 then '4' else if d = 5 then '5' else if d = 6 then '6' else if d = 7 then '7'
  else if d = 8 then '8' else '9'

/-- Fuel-indexed big-endian decimal digit rendering (structural, kernel-reducible). -/
def natDigitsBEAux : ℕ → ℕ → List Char
  | 0, n => [digitChar10 n]
  | f+1, n => if n < 10 then [digitChar10 n] else natDigitsBEAux f (n / 10) ++ [digitChar10 (n % 10)]

/-- Big-endian decimal digits of a natural number (`"0"` for zero). -/
def natDigitsBE (n : ℕ) : List Char := natDigitsBEAux n n

/-- Number of decimal digits of `n` (one digit for zero). -/
def digitLen (n : ℕ) : ℕ := (natDigitsBE n).length

/-- Decimal rendering of an integer, the model of Python `str` on `int`. -/
def intRepr (n : ℤ) : List Char :=
  (if n < 0 then ['-'] else []) ++ natDigitsBE n.natAbs

/-! ## The C-library `%.<prec>g` formatting model

`f"{value:.10g}"` (source: `valrep/modifiers.py`, line 17) delegates to the
C-library `%g` conversion of the double `value`.  `pyFormatG prec v` renders the
exact rational `v` with `prec` significant digits: round to `prec` significant
digits with ties to even, then use fixed notation when the decimal exponent `e`
satisfies `-4 ≤ e < prec` and scientific notation otherwise, stripping trailing
fractional zeros (and the decimal point when none remain) in both cases. -/

/-- Round `P / Q` (with `Q > 0`) to the nearest integer, ties to even. -/
def roundHalfEvenNat (P Q : ℕ) : ℕ :=
  let n := P / Q
  let r := P % Q
  if 2 * r < Q then n else if Q < 2 * r then n + 1 else if n % 2 = 0 then n else n + 1

/-- Decide `10 ^ e ≤ p / q` for naturals `p, q > 0` and an integer exponent `e`. -/
def geTenPow (p q : ℕ) (e : ℤ) : Bool :=
  if 0 ≤ e then q * 10 ^ e.toNat ≤ p else q ≤ p * 10 ^ (-e).toNat

/-- The decimal exponent `⌊log10 (p / q)⌋` of a positive rational `p / q`. -/
def decExpPQ (p q : ℕ) : ℤ :=
  let e0 : ℤ := (digitLen p : ℤ) - (digitLen q : ℤ)
  if geTenPow p q e0 then e0 else e0 - 1

/-- Fixed-notation body from the `prec` significant digits `ds` and exponent `e`
(requires `-4 ≤ e < ds.length`). -/
def fixedChars (ds : List Char) (e : ℤ) : List Char :=
  if 0 ≤ e then
    let ip := ds.take (e.toNat + 1)
    let fp := stripTrailingZeros (ds.drop (e.toNat + 1))
    if fp = [] then ip else ip ++ '.' :: fp
  else
    let fp := stripTrailingZeros (List.replicate (-e - 1).toNat '0' ++ ds)
    if fp = [] then ['0'] else '0' :: '.' :: fp

/-- Exponent suffix `e±XX` (sign always printed, at least two exponent digits). -/
def expChars (e : ℤ) : List Char :=
  'e' :: (if e < 0 then '-' else '+') ::
    (if e.natAbs < 10 then '0' :: natDigitsBE e.natAbs else natDigitsBE e.natAbs)

/-- Scientific-notation body from the significant digits `ds` and exponent `e`. -/
def sciChars : List Char → ℤ → List Char
  | [], _ => ['0']
  | d :: rest, e =>
    let fp := stripTrailingZeros rest
    (if fp = [] then [d] else d :: '.' :: fp) ++ expChars e

/-- `%.<prec>g` rendering of the exact rational value `v` (for `prec ≥ 1`). -/
def pyFormatG (prec : ℕ) (v : ℚ) : List Char :=
  if v = 0 then ['0']
  else
    let p := v.num.natAbs
    let q := v.den
    let e := decExpPQ p q
    let k : ℤ := (prec : ℤ) - 1 - e
    let m0 := roundHalfEvenNat (p * 10 ^ k.toNat) (q * 10 ^ (-k).toNat)
    let me : ℕ × ℤ := if m0 = 10 ^ prec then (10 ^ (prec - 1), e + 1) else (m0, e)
    let ds := natDigitsBE me.1
    let body := if -4 ≤ me.2 ∧ me.2 < (prec : ℤ) then fixedChars ds me.2 else sciChars ds me.2
    if v < 0 then '-' :: body else body

/-- `format_float_to_str` (source: `valrep/modifiers.py`, lines 8-22): render the
value with `f"{value:.10g}"`, then replace the decimal point by `'p'`, stripping
trailing fractional zeros but keeping at least one digit, and append `"p0"` when
there is no decimal point.  (The source's `s.split(".")` two-element unpacking is
total here because `%g` output contains at most one `'.'`.) -/
def format_float_to_str (value : ℚ) : String :=
  let s := pyFormatG 10 value
  if '.' ∈ s then
    let intPart := s.takeWhile (fun c => c ≠ '.')
    let decPart := (s.dropWhile (fun c => c ≠ '.')).tail
    let decPart' := if stripTrailingZeros decPart = [] then ['0'] else stripTrailingZeros decPart
    String.mk (intPart ++ 'p' :: decPart')
  else
    String.mk (s ++ ['p', '0'])

/-! ## Data model

A `ParameterSpace` entry is a Python dict that may carry `min`/`max`/`step`
and/or `value` keys; scalars are exact rationals (`min`/`max`/`step` are the
integers the range declaration of the data model prescribes). -/

/-- One parameter-space entry (the optional keys of the Python dict). -/
structure PEntry where
  min? : Option ℤ
  max? : Option ℤ
  step? : Option ℤ
  value? : Option ℚ
deriving DecidableEq, Repr

/-- A fixed-value entry `{"value": v}`, as built by `generate` (line 71). -/
def PEntry.mkValue (v : ℚ) : PEntry := ⟨none, none, none, some v⟩

/-- The workflow configuration fields the core reads (`topology`, `energy`,
`parameter_space` may be absent from the dict; `generate`/`modify` copy the
config, so the derived `job_name` field lives here as well). -/
structure Config where
  topology : Option String
  energy : Option ℚ
  parameter_space : List (String × PEntry)
  job_name : Option String
deriving DecidableEq, Repr

/-! ## Parameter-space expansion (`ParameterSpaceModifier.generate`) -/

/-- Length of Python `range(start, stop, step)` for `step ≠ 0` (zero length for
`step = 0`, where Python raises instead; `generate` surfaces that error before
calling this). -/
def pyRangeLen (start stop step : ℤ) : ℕ :=
  if 0 < step then ((stop - start + step - 1).fdiv step).toNat
  else if step < 0 then ((start - stop - step - 1).fdiv (-step)).toNat
  else 0

/-- Python `range(start, stop, step)` as the list of its elements. -/
def pyRange (start stop step : ℤ) : List ℤ :=
  (List.range (pyRangeLen start stop step)).map (fun (i : ℕ) => start + step * (i : ℤ))

/-- The per-parameter value list of `generate` (lines 59-68): a range entry
(all of `min`/`max`/`step` present) yields `range(min, max + 1, step)`; else a
`value` entry yields its single value; else the `ValueError` of lines 66-68.
A range entry with `step = 0` propagates Python's `range` error. -/
def entryValues (k : String) (p : PEntry) : Except String (List ℚ) :=
  match p.min?, p.max?, p.step? with
  | some mn, some mx, some st =>
    if st = 0 then .error "range() arg 3 must not be zero"
    else .ok ((pyRange mn (mx + 1) st).map (fun (z : ℤ) => (z : ℚ)))
  | _, _, _ =>
    match p.value? with
    | some v => .ok [v]
    | none => .error ("For parameter " ++ k ++ ", either min/max/step or value must be defined.")

/-- The `ranges` list built by the loop of lines 58-68, first error wins. -/
def buildRanges : List (String × PEntry) → Except String (List (List ℚ))
  | [] => .ok []
  | (k, p) :: rest => do
    let r ← entryValues k p
    let rs ← buildRanges rest
    .ok (r :: rs)

/-- `itertools.product(*ranges)`: the Cartesian product in row-major order,
the first list varying slowest and the last list varying fastest. -/
def listProd : List (List ℚ) → List (List ℚ)
  | [] => [[]]
  | l :: ls => l.flatMap (fun x => (listProd ls).map (fun xs => x :: xs))

/-- `ParameterSpaceModifier.generate` (lines 53-74): build the per-key ranges,
then yield one shallow-copied config per point of the Cartesian product, with
`parameter_space` replaced by the point's `{k: {"value": v}}` mapping.  The
Python generator raises any `ValueError` on first iteration, before yielding
anything, so the error case produces no partial sequence. -/
def ParameterSpaceModifier.generate (config : Config) : Except String (List Config) := do
  let ps := config.parameter_space
  let rs ← buildRanges ps
  .ok ((listProd rs).map (fun vs =>
    { config with parameter_space := (ps.map Prod.fst).zip (vs.map PEntry.mkValue) }))

/-! ## Job-name generation (`JobNameModifier.modify`) -/

/-- Python `"_".join`. -/
def joinUnderscore : List (List Char) → List Char
  | [] => []
  | [x] => x
  | x :: xs => x ++ '_' :: joinUnderscore xs

/-- The `p["value"]` reads of the comprehension at lines 89-91: the values of
the parameter mapping in order, `none` when an entry lacks the `value` key
(a `KeyError` in the source). -/
def valuesOf : List (String × PEntry) → Option (List ℚ)
  | [] => some []
  | kp :: rest =>
    match kp.2.value? with
    | some v => (valuesOf rest).map (fun l => v :: l)
    | none => none

/-- `JobNameModifier.modify` (lines 83-98): attach
`{topology}.{v1}_{v2}_..._{vn}.{energy}` as `job_name`, every scalar rendered by
`format_float_to_str`.  A missing `energy` makes `float(None)` raise (`none`
result); a parameter entry without a `value` key raises `KeyError` likewise. -/
def JobNameModifier.modify (config : Config) : Option Config := do
  let topology := config.topology.getD "unknown"
  let energy ← config.energy
  let vals ← valuesOf config.parameter_space
  let param_values := joinUnderscore (vals.map (fun v => (format_float_to_str v).data))
  let job_name := topology ++ "." ++ String.mk param_values ++ "." ++ format_float_to_str energy
  some { config with job_name := some job_name }

/-- The job name `modify` attaches, when it succeeds. -/
def jobNameOf (config : Config) : Option String :=
  (JobNameModifier.modify config).bind (fun c => c.job_name)

/-! ## Formula evaluation (`evaluate_formula`)

`evaluate_formula` (source: `valrep/modifiers.py`, lines 25-40) calls Python's
`eval(value, {"__builtins__": {}}, local_vars)`.  Full `eval` semantics cannot
be captured by a shallow embedding; `evalArith` models it on the arithmetic
expression fragment the specification prescribes for formulas — numeric
literals, parameter names, `+`, `-`, `*`, `/`, unary minus and parentheses —
with every failure (unknown name, malformed expression, division by zero)
collapsed to `none`, mirroring the `except Exception` handler.  Strings outside
this fragment are treated as evaluation failures; this under-approximates what
`eval` accepts (see the claim about evaluator safety). -/

/-- A Python value as far as `evaluate_formula` observes it: a number, a string,
or anything else (`noneV` for `None`, `other` for any further object). -/
inductive PyVal
  | int (n : ℤ)
  | float (q : ℚ)
  | str (s : String)
  | noneV
  | other
deriving DecidableEq, Repr

/-- An unreduced fraction: the exact value of an intermediate Python float.
Keeping numerator and denominator unnormalised keeps the evaluator's arithmetic
inside ℤ (the claims' computations are exact in doubles). -/
structure Frac where
  num : ℤ
  den : ℤ
deriving DecidableEq, Repr

/-- Embed a rational into `Frac`. -/
def Frac.ofRat (q : ℚ) : Frac := ⟨q.num, (q.den : ℤ)⟩

/-- The rational value of a `Frac`. -/
def Frac.toRat (x : Frac) : ℚ := Rat.divInt x.num x.den

/-- Python `+` on floats. -/
def Frac.add (a b : Frac) : Frac := ⟨a.num * b.den + b.num * a.den, a.den * b.den⟩

/-- Python binary `-` on floats. -/
def Frac.sub (a b : Frac) : Frac := ⟨a.num * b.den - b.num * a.den, a.den * b.den⟩

/-- Python `*` on floats. -/
def Frac.mul (a b : Frac) : Frac := ⟨a.num * b.num, a.den * b.den⟩

/-- Python `/` on floats, defined for a non-zero divisor. -/
def Frac.div (a b : Frac) : Frac := ⟨a.num * b.den, a.den * b.num⟩

/-- Python unary `-` on floats. -/
def Frac.neg (a : Frac) : Frac := ⟨-a.num, a.den⟩

/-- Tokens of the arithmetic fragment. -/
inductive Tok
  | num (v : Frac)
  | name (s : String)
  | plus
  | minus
  | star
  | slash
  | lparen
  | rparen
deriving DecidableEq, Repr

/-- Decimal digit test. -/
def isDigitCh (c : Char) : Bool := '0' ≤ c ∧ c ≤ '9'

/-- Identifier characters (Python names over ASCII). -/
def isIdentStart (c : Char) : Bool := c.isAlpha || c = '_'

/-- Characters allowed after the first character of an identifier. -/
def isIdentCh (c : Char) : Bool := c.isAlpha || isDigitCh c || c = '_'

/-- Numeric value of a digit string. -/
def natOfDigits (l : List Char) : ℕ :=
  l.foldl (fun a c => 10 * a + (c.toNat - '0'.toNat)) 0

/-- Value of an integer literal with an optional fractional part. -/
def decValue (ip fp : List Char) : Frac :=
  ⟨(natOfDigits ip : ℤ) * 10 ^ fp.length + (natOfDigits fp : ℤ), (10 : ℤ) ^ fp.length⟩

/-- Tokenizer of the arithmetic fragment (fuel-indexed over the characters). -/
def tokenizeAux : ℕ → List Char → Option (List Tok)
  | 0, _ => none
  | _+1, [] => some []
  | f+1, c :: cs =>
    if c = ' ' then tokenizeAux f cs
    else if c = '+' then (tokenizeAux f cs).map (Tok.plus :: ·)
    else if c = '-' then (tokenizeAux f cs).map (Tok.minus :: ·)
    else if c = '*' then (tokenizeAux f cs).map (Tok.star :: ·)
    else if c = '/' then (tokenizeAux f cs).map (Tok.slash :: ·)
    else if c = '(' then (tokenizeAux f cs).map (Tok.lparen :: ·)
    else if c = ')' then (tokenizeAux f cs).map (Tok.rparen :: ·)
    else if isDigitCh c then
      let ip := (c :: cs).takeWhile isDigitCh
      let rest := (c :: cs).dropWhile isDigitCh
      match rest with
      | '.' :: rest2 =>
        let fp := rest2.takeWhile isDigitCh
        (tokenizeAux f (rest2.dropWhile isDigitCh)).map (Tok.num (decValue ip fp) :: ·)
      | _ => (tokenizeAux f rest).map (Tok.num ⟨(natOfDigits ip : ℤ), 1⟩ :: ·)
    else if isIdentStart c then
      let id := (c :: cs).takeWhile isIdentCh
      (tokenizeAux f ((c :: cs).dropWhile isIdentCh)).map (Tok.name (String.mk id) :: ·)
    else none

/-- Tokenize a whole string. -/
def tokenize (s : String) : Option (List Tok) := tokenizeAux (s.data.length + 1) s.data

/-- Variable lookup in the evaluation environment. -/
def lookupVar (env : List (String × ℚ)) (s : String) : Option ℚ :=
  (env.find? (fun e => e.1 = s)).map (fun e => e.2)

mutual

/-- `expr := term (('+' | '-') term)*`, evaluated directly. -/
def parseExpr : ℕ → List (String × ℚ) → List Tok → Option (Frac × List Tok)
  | 0, _, _ => none
  | f+1, env, ts => do
    let (v, rest) ← parseTerm f env ts
    parseExprRest f env v rest

/-- Remaining additive operations. -/
def parseExprRest : ℕ → List (String × ℚ) → Frac → List Tok → Option (Frac × List Tok)
  | 0, _, _, _ => none
  | f+1, env, acc, Tok.plus :: ts => do
    let (v, rest) ← parseTerm f env ts
    parseExprRest f env (acc.add v) rest
  | f+1, env, acc, Tok.minus :: ts => do
    let (v, rest) ← parseTerm f env ts
    parseExprRest f env (acc.sub v) rest
  | _+1, _, acc, ts => some (acc, ts)

/-- `term := factor (('*' | '/') factor)*`; division by zero fails. -/
def parseTerm : ℕ → List (String × ℚ) → List Tok → Option (Frac × List Tok)
  | 0, _, _ => none
  | f+1, env, ts => do
    let (v, rest) ← parseFactor f env ts
    parseTermRest f env v rest

/-- Remaining multiplicative operations. -/
def parseTermRest : ℕ → List (String × ℚ) → Frac → List Tok → Option (Frac × List Tok)
  | 0, _, _, _ => none
  | f+1, env, acc, Tok.star :: ts => do
    let (v, rest) ← parseFactor f env ts
    parseTermRest f env (acc.mul v) rest
  | f+1, env, acc, Tok.slash :: ts => do
    let (v, rest) ← parseFactor f env ts
    if v.num = 0 then none else parseTermRest f env (acc.div v) rest
  | _+1, _, acc, ts => some (acc, ts)

/-- `factor := '-' factor | number | name | '(' expr ')'`; an unknown name fails. -/
def parseFactor : ℕ → List (String × ℚ) → List Tok → Option (Frac × List Tok)
  | 0, _, _ => none
  | f+1, env, Tok.minus :: ts => do
    let (v, rest) ← parseFactor f env ts
    some (v.neg, rest)
  | _+1, _, Tok.num v :: ts => some (v, ts)
  | _+1, env, Tok.name s :: ts => do
    let v ← lookupVar env s
    some (Frac.ofRat v, ts)
  | f+1, env, Tok.lparen :: ts => do
    let (v, rest) ← parseExpr f env ts
    match rest with
    | Tok.rparen :: rest2 => some (v, rest2)
    | _ => none
  | _+1, _, _ => none

end

/-- Run the tokenizer and parser; `none` is any failure. -/
def evalArithRaw (s : String) (env : List (String × ℚ)) : Option Frac := do
  let ts ← tokenize s
  match parseExpr (3 * ts.length + 3) env ts with
  | some (v, []) => some v
  | _ => none

/-- Evaluate a formula string against an environment; `none` is any failure. -/
def evalArith (s : String) (env : List (String × ℚ)) : Option ℚ :=
  (evalArithRaw s env).map Frac.toRat

/-- The `local_vars` construction of line 34: `{k: float(v["value"]) for k, v in
param_space.items()}`.  An entry without a `"value"` key raises `KeyError`
(this happens outside the `try` block, so it propagates to the caller). -/
def buildLocals : List (String × PEntry) → Except String (List (String × ℚ))
  | [] => .ok []
  | (k, p) :: rest =>
    match p.value? with
    | some v => (buildLocals rest).map (fun l => (k, v) :: l)
    | none => .error ("KeyError: value (parameter " ++ k ++ ")")

/-- `evaluate_formula` (lines 25-40): numbers pass through unchanged; strings
are evaluated against the parameter values, any evaluation failure returning the
original string; every other value returns `None`. -/
def evaluate_formula (value : PyVal) (param_space : List (String × PEntry)) :
    Except String PyVal :=
  match value with
  | .int n => .ok (.int n)
  | .float q => .ok (.float q)
  | .str s => do
    let locals ← buildLocals param_space
    match evalArith s locals with
    | some q => .ok (.float q)
    | none => .ok (.str s)
  | _ => .ok .noneV

/-! ## The run-card settings loop of `MadGraphStep.run` -/

/-- The rendering of one resolved setting (lines 158-163): integral numbers
print as `str(int(x))`, other floats as `f"{x:.6g}"`, strings as themselves.
(`other` cannot reach this point: `evaluate_formula` never returns it.) -/
def formatSetting : PyVal → String
  | .int n => String.mk (intRepr n)
  | .float q => if q.den = 1 then String.mk (intRepr q.num) else String.mk (pyFormatG 6 q)
  | .str s => s
  | .noneV => "None"
  | .other => "<object>"

/-- The `run_settings` loop of `MadGraphStep.run` (source:
`steps/madgraph/step.py`, lines 151-165): resolve each setting through
`evaluate_formula`; a `None` result is skipped with a warning (recorded here as
the `(key, value)` pair the printed message interpolates), any other result is
written as a `set run_card` line.  A `KeyError` from `evaluate_formula`
propagates. -/
def mkRunCardLines (run_settings : List (String × PyVal))
    (param_space : List (String × PEntry)) :
    Except String (List String × List (String × PyVal)) :=
  match run_settings with
  | [] => .ok ([], [])
  | (key, val) :: rest => do
    let evaluated ← evaluate_formula val param_space
    let (lines, warns) ← mkRunCardLines rest param_space
    match evaluated with
    | .noneV => .ok (lines, (key, val) :: warns)
    | ev => .ok (("set run_card " ++ key ++ " " ++ formatSetting ev) :: lines, warns)


/-! ## Filesystem model and step skip-if-done logic

A filesystem snapshot maps paths of regular files to their sizes in bytes.
Directories are not modelled: the `os.makedirs(..., exist_ok=True)` calls of the
steps only create directories and never touch file contents.  `parentDir` and
`baseName` model `os.path.abspath(os.path.join(p, ".."))` and
`os.path.basename(p)` for an absolute, normalised `p`, the form the runner's
per-point directories take. -/

/-- Files with their sizes. -/
abbrev FS := List (String × ℕ)

/-- The size of a file, `none` when the path does not exist. -/
def fsSize (fs : FS) (path : String) : Option ℕ :=
  (fs.find? (fun e => e.1 = path)).map (fun e => e.2)

/-- `os.path.exists`. -/
def fsExistsB (fs : FS) (path : String) : Bool := (fsSize fs path).isSome

/-- `os.path.join` for one component. -/
def pathJoin (a b : String) : String := a ++ "/" ++ b

/-- Parent directory of an absolute, normalised path. -/
def parentDir (p : String) : String :=
  String.mk ((p.data.reverse.dropWhile (fun c => c ≠ '/')).tail.reverse)

/-- Final component of an absolute, normalised path. -/
def baseName (p : String) : String :=
  String.mk (p.data.reverse.takeWhile (fun c => c ≠ '/')).reverse

/-- What a modelled `run` call produces: a returned artifact location, an
uncaught exception, or the point where the first external process is spawned
(everything after that spawn depends on the external binary and is outside the
embedding). -/
inductive StepResult
  | ret (path : String)
  | raised (msg : String)
  | launched (cmd : List String)
deriving DecidableEq, Repr

/-- A `run` outcome together with the external commands spawned on the way. -/
structure RunTrace where
  result : StepResult
  spawned : List (List String)
deriving DecidableEq, Repr

/-- The step configuration `DelphesHEPMCStep.run` reads:
`(config or self.config).get("delphes", {}).get("card_path")`, collapsed to the
optional card path (absent section and absent key both yield `none`; Python's
truthiness fallback on an empty dict is modelled as the `none` fallback). -/
structure DelphesConfig where
  card_path? : Option String
deriving DecidableEq, Repr

/-- The `DelphesHEPMCStep` instance state (`steps/delphes_hepmc/step.py`). -/
structure DelphesHEPMCStep where
  config : DelphesConfig
  skip_if_done : Bool
deriving DecidableEq, Repr

/-- `DelphesHEPMCStep.is_done` (lines 42-57): the ROOT output exists and is
non-empty. -/
def DelphesHEPMCStep.is_done (fs : FS) (point_dir : String) : Bool :=
  let output_root := pathJoin (pathJoin point_dir "delphes_hepmc") "delphes_output.root"
  match fsSize fs output_root with
  | some sz => 0 < sz
  | none => false

/-- `DelphesHEPMCStep.run` (lines 59-124) up to the Delphes spawn: `None`
`point_dir` raises; the skip-if-done branch (lines 96-98) returns the output
path; then the `DELPHES_EXEC`, `card_path` and `prev_output` checks raise in
turn; finally the gunzipped input is handed to Delphes. -/
def DelphesHEPMCStep.run (self : DelphesHEPMCStep) (env : String → Option String) (fs : FS)
    (config : Option DelphesConfig) (point_dir : Option String)
    (prev_output : Option String) : RunTrace :=
  match point_dir with
  | none => ⟨.raised "point_dir cannot be None!", []⟩
  | some pd =>
    let step_dir := pathJoin pd "delphes_hepmc"
    let output_root := pathJoin step_dir "delphes_output.root"
    if self.skip_if_done ∧ DelphesHEPMCStep.is_done fs pd then ⟨.ret output_root, []⟩
    else
      match env "DELPHES_EXEC" with
      | none => ⟨.raised "DELPHES_EXEC not set!", []⟩
      | some delphes_exec =>
        match (config.getD self.config).card_path? with
        | none => ⟨.raised "card_path missing in config", []⟩
        | some delphes_card =>
          match prev_output with
          | none => ⟨.raised "Invalid prev_output: None", []⟩
          | some prev =>
            if fsExistsB fs prev then
              let cmd := [delphes_exec, delphes_card, output_root, pathJoin step_dir "input.hepmc"]
              ⟨.launched cmd, [cmd]⟩
            else ⟨.raised ("Invalid prev_output: " ++ prev), []⟩

/-- The step configuration `MadGraphStep.run` reads out of
`self.config.get("madgraph", self.config)`. -/
structure MadGraphConfig where
  proc_card? : Option String
  run_settings : List (String × PyVal)
  pythia8_settings : List (String × String)
deriving DecidableEq, Repr

/-- The `MadGraphStep` instance state (`steps/madgraph/step.py`). -/
structure MadGraphStep where
  config : MadGraphConfig
  skip_if_done : Bool
  run_name : String
deriving DecidableEq, Repr

/-- `MadGraphStep.is_done` (lines 30-52): some candidate output file — the
internal `Events/<run>/unweighted_events.lhe.gz` or one of the two published
copies — exists with size above 1024 bytes. -/
def MadGraphStep.is_done (self : MadGraphStep) (fs : FS) (point_dir : String) : Bool :=
  let step_dir := pathJoin point_dir "madgraph"
  let all_points_dir := parentDir point_dir
  let mass_name := baseName point_dir
  let candidates := [
    pathJoin (pathJoin (pathJoin step_dir "Events") self.run_name) "unweighted_events.lhe.gz",
    pathJoin (pathJoin all_points_dir "mg5_events_lhe") (mass_name ++ ".lhe.gz"),
    pathJoin (pathJoin all_points_dir "mg5py8_events_hepmc") (mass_name ++ ".hepmc.gz")]
  candidates.any (fun f =>
    match fsSize fs f with
    | some sz => 1024 < sz
    | none => false)

/-- `MadGraphStep.run` (lines 54-127) up to the MG5 spawn.  The skip branch
(lines 76-83) returns the published hepmc copy, else the published lhe copy,
else the empty string; otherwise a missing `MG5_EXEC` raises, the proc card is
looked up and rewritten into the step directory, and MG5 is launched (behaviour
past that spawn depends on the external binaries; the `config` argument is only
read by the post-spawn run-card loop, modelled by `mkRunCardLines`). -/
def MadGraphStep.run (self : MadGraphStep) (env : String → Option String) (fs : FS)
    (_config : Config) (point_dir : String) (_prev_output : Option String) : RunTrace :=
  let step_dir := pathJoin point_dir "madgraph"
  let all_points_dir := parentDir point_dir
  let mass_name := baseName point_dir
  let lhe_out := pathJoin (pathJoin all_points_dir "mg5_events_lhe") (mass_name ++ ".lhe.gz")
  let hepmc_out :=
    pathJoin (pathJoin all_points_dir "mg5py8_events_hepmc") (mass_name ++ ".hepmc.gz")
  if self.skip_if_done ∧ self.is_done fs point_dir then
    if fsExistsB fs hepmc_out then ⟨.ret hepmc_out, []⟩
    else if fsExistsB fs lhe_out then ⟨.ret lhe_out, []⟩
    else ⟨.ret "", []⟩
  else
    match env "MG5_EXEC" with
    | none => ⟨.raised "MG5_EXEC environment variable not set!", []⟩
    | some mg_exec =>
      match self.config.proc_card? with
      | none => ⟨.raised "KeyError: proc_card", []⟩
      | some proc_card_path =>
        if fsExistsB fs proc_card_path then
          let cmd := [mg_exec, "-f", pathJoin step_dir (baseName proc_card_path)]
          ⟨.launched cmd, [cmd]⟩
        else ⟨.raised ("No such file or directory: " ++ proc_card_path), []⟩

/-! ## The pipeline runner -/

/-- The per-point chain outcome of the runner's state machine. -/
inductive ChainOutcome
  | Done (last : Option String)
  | Failed (stepIndex : ℕ) (cause : String)
deriving DecidableEq, Repr

/-- Chain execution, also recording each invocation as
`(stepIndex, previousOutput)`. -/
def runChainAux : ℕ → Option String → List (Option String → Except String String) →
    ChainOutcome × List (ℕ × Option String)
  | _, prev, [] => (.Done prev, [])
  | i, prev, f :: rest =>
    match f prev with
    | .ok out =>
      let r := runChainAux (i + 1) (some out) rest
      (r.1, (i, prev) :: r.2)
    | .error c => (.Failed i c, [(i, prev)])

/-- Modelled from the spec: the `PipelineRunner` component (spec section 4.6)
has no implementation under `src/` — the repository ships only the step plugins
it would drive.  Per the spec, for one parameter point the runner executes the
configured ordered list of steps, feeding each step's returned artifact location
as `previousOutput` to the next, the first step receiving none; on the first
step failure it stops, reporting `Failed(stepIndex, cause)` without attempting
the remaining steps, and reports `Done` otherwise. -/
def PipelineRunner.runChain (steps : List (Option String → Except String String)) :
    ChainOutcome × List (ℕ × Option String) :=
  runChainAux 0 none steps

/-! ## Spec-side mirror of parameter-space expansion (for the refinement claim) -/

/-- Spec-side range enumeration, following the claim's words: the integers from
`min` to `max` inclusive stepping by `step`, exactly `floor((max-min)/step)+1`
values (clamped at zero when the range is empty). -/
def specRangeValues (mn mx st : ℤ) : List ℤ :=
  (List.range ((mx - mn).fdiv st + 1).toNat).map (fun (i : ℕ) => mn + st * (i : ℤ))

/-- Spec-side per-parameter value list: a fixed-value entry contributes its
single value, a range entry its enumeration. -/
def specEntryList (p : PEntry) : List ℚ :=
  match p.min?, p.max?, p.step? with
  | some mn, some mx, some st => (specRangeValues mn mx st).map (fun (z : ℤ) => (z : ℚ))
  | _, _, _ =>
    match p.value? with
    | some v => [v]
    | none => []

/-- Spec-side expansion: the Cartesian product across all parameters in
declaration order, iterated with the last-declared parameter varying fastest
(`listProd` is exactly that row-major order), each point carrying the same key
set with the resolved scalar substituted. -/
def specExpand (config : Config) : List Config :=
  (listProd (config.parameter_space.map (fun kp => specEntryList kp.2))).map (fun vs =>
    { config with
      parameter_space := (config.parameter_space.map Prod.fst).zip (vs.map PEntry.mkValue) })

/-- The claim's well-shapedness hypothesis: each entry is a range entry with
positive step (taking the range branch) or a fixed-value entry (taking the
value branch). -/
def entryShapedB (p : PEntry) : Bool :=
  match p.min?, p.max?, p.step? with
  | some _, some _, some st => 0 < st
  | _, _, _ => p.value?.isSome

/-- Propositional form of `entryShapedB`. -/
def EntryShaped (p : PEntry) : Prop := entryShapedB p = true

instance (p : PEntry) : Decidable (EntryShaped p) := by
  unfold EntryShaped
  infer_instance

/-- The shape condition of the source's `if`/`elif` (lines 61-64): all of
`min`/`max`/`step` present, or `value` present. -/
def SourceShaped (p : PEntry) : Prop :=
  (p.min?.isSome ∧ p.max?.isSome ∧ p.step?.isSome) ∨ p.value?.isSome = true

instance (p : PEntry) : Decidable (SourceShaped p) := by
  unfold SourceShaped
  infer_instance


/-! ## Lemmas: digit rendering -/

theorem natDigitsBEAux_congr {n f g : ℕ} (hf : n ≤ 10 ^ f) (hg : n ≤ 10 ^ g) :
    natDigitsBEAux f n = natDigitsBEAux g n := by
  induction f generalizing n g with
  | zero =>
    have hn : n < 10 := by simpa using Nat.lt_of_le_of_lt hf (by norm_num)
    cases g with
    | zero => rfl
    | succ g => simp [natDigitsBEAux, hn]
  | succ f ih =>
    cases g with
    | zero =>
      have hn : n < 10 := by simpa using Nat.lt_of_le_of_lt hg (by norm_num)
      simp [natDigitsBEAux, hn]
    | succ g =>
      by_cases hn : n < 10
      · simp [natDigitsBEAux, hn]
      · have pow_div : ∀ m : ℕ, n ≤ 10 ^ (m + 1) → n / 10 ≤ 10 ^ m := by
          intro m hm
          have h1 : n / 10 ≤ 10 ^ (m + 1) / 10 := Nat.div_le_div_right hm
          have h2 : 10 ^ (m + 1) / 10 = 10 ^ m := by
            rw [Nat.pow_succ]
            exact Nat.mul_div_cancel _ (by norm_num)
          omega
        simp [natDigitsBEAux, hn, ih (pow_div f hf) (pow_div g hg)]

theorem le_pow_self_ten (n : ℕ) : n < 10 ^ n := Nat.lt_pow_self (by norm_num) n

theorem natDigitsBE_eq_aux (n f : ℕ) (h : n ≤ 10 ^ f) : natDigitsBE n = natDigitsBEAux f n :=
  natDigitsBEAux_congr (le_pow_self_ten n).le h

theorem natDigitsBE_lt {n : ℕ} (h : n < 10) : natDigitsBE n = [digitChar10 n] := by
  cases n with
  | zero => rfl
  | succ m => simp [natDigitsBE, natDigitsBEAux, h]

theorem natDigitsBE_ge {n : ℕ} (h : 10 ≤ n) :
    natDigitsBE n = natDigitsBE (n / 10) ++ [digitChar10 (n % 10)] := by
  have hb : n ≤ 10 ^ (n / 10 + 1) := by
    have h1 : n / 10 < 10 ^ (n / 10) := le_pow_self_ten _
    have h2 : n < (n / 10 + 1) * 10 := by omega
    have h3 : (n / 10 + 1) * 10 ≤ 10 ^ (n / 10) * 10 := Nat.mul_le_mul_right 10 h1
    rw [Nat.pow_succ]
    omega
  have h1 : natDigitsBE n = natDigitsBEAux (n / 10 + 1) n := natDigitsBE_eq_aux n _ hb
  rw [h1]
  have hn : ¬ n < 10 := by omega
  simp only [natDigitsBEAux, hn, if_false]
  rfl

theorem natDigitsBE_ne_nil (n : ℕ) : natDigitsBE n ≠ [] := by
  by_cases h : n < 10
  · simp [natDigitsBE_lt h]
  · simp [natDigitsBE_ge (show 10 ≤ n by omega)]

theorem digitChar10_isDigit {d : ℕ} : isDigitCh (digitChar10 d) = true := by
  unfold digitChar10
  split_ifs <;> decide

theorem natDigitsBE_isDigit {n : ℕ} {c : Char} (h : c ∈ natDigitsBE n) : isDigitCh c = true := by
  induction n using Nat.strong_induction_on with
  | _ n ih =>
    by_cases hn : n < 10
    · rw [natDigitsBE_lt hn] at h
      simp at h
      exact h ▸ digitChar10_isDigit
    · rw [natDigitsBE_ge (by omega)] at h
      rcases List.mem_append.mp h with h1 | h1
      · exact ih (n / 10) (Nat.div_lt_self (by omega) (by norm_num)) h1
      · simp at h1
        exact h1 ▸ digitChar10_isDigit

theorem digitChar10_inj {a b : ℕ} (ha : a < 10) (hb : b < 10) (h : digitChar10 a = digitChar10 b) :
    a = b := by
  interval_cases a <;> interval_cases b <;> simp_all [digitChar10]

theorem cons_last_eq {α : Type} (a b : List α) (x y : α) (h : a ++ [x] = b ++ [y]) :
    a = b ∧ x = y := by
  have h2 := congrArg List.reverse h
  simp only [List.reverse_append, List.reverse_cons, List.reverse_nil, List.nil_append,
    List.cons_append, List.cons.injEq] at h2
  exact ⟨by simpa using congrArg List.reverse h2.2, h2.1⟩

theorem natDigitsBE_injective : ∀ {a b : ℕ}, natDigitsBE a = natDigitsBE b → a = b := by
  intro a
  induction a using Nat.strong_induction_on with
  | _ a ih =>
    intro b h
    by_cases ha : a < 10 <;> by_cases hb : b < 10
    · rw [natDigitsBE_lt ha, natDigitsBE_lt hb] at h
      simp at h
      exact digitChar10_inj ha hb h
    · rw [natDigitsBE_lt ha, natDigitsBE_ge (by omega)] at h
      exact absurd (congrArg List.length h)
        (by simp [List.length_append]; have := natDigitsBE_ne_nil (b / 10);
            cases hbb : natDigitsBE (b / 10) <;> simp_all)
    · rw [natDigitsBE_ge (by omega), natDigitsBE_lt hb] at h
      exact absurd (congrArg List.length h)
        (by simp [List.length_append]; have := natDigitsBE_ne_nil (a / 10);
            cases haa : natDigitsBE (a / 10) <;> simp_all)
    · rw [natDigitsBE_ge (show 10 ≤ a by omega), natDigitsBE_ge (show 10 ≤ b by omega)] at h
      obtain ⟨h1, h2⟩ := cons_last_eq _ _ _ _ h
      have hd : a / 10 = b / 10 := ih (a / 10) (Nat.div_lt_self (by omega) (by norm_num)) h1
      have hm : a % 10 = b % 10 :=
        digitChar10_inj (Nat.mod_lt _ (by norm_num)) (Nat.mod_lt _ (by norm_num)) h2
      omega

theorem natDigitsBE_mul_ten {n : ℕ} (hn : 0 < n) :
    natDigitsBE (n * 10) = natDigitsBE n ++ ['0'] := by
  have h10 : 10 ≤ n * 10 := by omega
  rw [natDigitsBE_ge h10, Nat.mul_div_cancel n (by norm_num), Nat.mul_mod_left]
  rfl

theorem natDigitsBE_mul_pow {n : ℕ} (hn : 0 < n) (j : ℕ) :
    natDigitsBE (n * 10 ^ j) = natDigitsBE n ++ List.replicate j '0' := by
  induction j with
  | zero => simp
  | succ j ih =>
    have : n * 10 ^ (j + 1) = n * 10 ^ j * 10 := by ring
    rw [this, natDigitsBE_mul_ten (by positivity), ih, List.append_assoc,
      List.replicate_succ' j '0']

theorem digitLen_pos (n : ℕ) : 0 < digitLen n := by
  unfold digitLen
  have := natDigitsBE_ne_nil n
  cases h : natDigitsBE n <;> simp_all

theorem pow_digitLen_pred_le {n : ℕ} (hn : 0 < n) : 10 ^ (digitLen n - 1) ≤ n := by
  induction n using Nat.strong_induction_on with
  | _ n ih =>
    by_cases h : n < 10
    · have : digitLen n = 1 := by unfold digitLen; rw [natDigitsBE_lt h]; rfl
      simpa [this]
    · have hrec : digitLen n = digitLen (n / 10) + 1 := by
        unfold digitLen
        rw [natDigitsBE_ge (by omega)]
        simp
      have hd : 0 < n / 10 := Nat.div_pos (by omega) (by norm_num)
      have := ih (n / 10) (Nat.div_lt_self (by omega) (by norm_num)) hd
      have h2 : 10 ^ (digitLen (n / 10) - 1) * 10 ≤ n / 10 * 10 := by omega
      have h3 : n / 10 * 10 ≤ n := Nat.div_mul_le_self n 10
      have h4 : digitLen n - 1 = digitLen (n / 10) - 1 + 1 := by
        have := digitLen_pos (n / 10); omega
      rw [h4, Nat.pow_succ]
      omega

theorem lt_pow_digitLen (n : ℕ) : n < 10 ^ digitLen n := by
  induction n using Nat.strong_induction_on with
  | _ n ih =>
    by_cases h : n < 10
    · have : digitLen n = 1 := by unfold digitLen; rw [natDigitsBE_lt h]; rfl
      simpa [this]
    · have hrec : digitLen n = digitLen (n / 10) + 1 := by
        unfold digitLen
        rw [natDigitsBE_ge (by omega)]
        simp
      have := ih (n / 10) (Nat.div_lt_self (by omega) (by norm_num))
      rw [hrec, Nat.pow_succ]
      omega

theorem digitLen_natDigitsBE_length (n : ℕ) : (natDigitsBE n).length = digitLen n := rfl


/-! ## Lemmas: formatting bounded integers -/

theorem digitLen_le {n m : ℕ} (h0 : 0 < n) (h : n < 10 ^ m) : digitLen n ≤ m := by
  by_contra hc
  have h1 : m ≤ digitLen n - 1 := by omega
  have h2 : (10 : ℕ) ^ m ≤ 10 ^ (digitLen n - 1) := Nat.pow_le_pow_right (by norm_num) h1
  have h3 := pow_digitLen_pred_le h0
  omega

theorem roundHalfEvenNat_one (P : ℕ) : roundHalfEvenNat P 1 = P := by
  simp [roundHalfEvenNat, Nat.mod_one, Nat.div_one]

theorem stripTrailingZeros_replicate (j : ℕ) : stripTrailingZeros (List.replicate j '0') = [] := by
  unfold stripTrailingZeros
  rw [List.reverse_replicate]
  have : (List.replicate j '0').dropWhile (fun c => c = '0') = [] := by
    induction j with
    | zero => rfl
    | succ j ih => simp [List.replicate_succ, List.dropWhile, ih]
  simp [this]

theorem decExpPQ_int {n : ℕ} (h0 : 0 < n) : decExpPQ n 1 = (digitLen n : ℤ) - 1 := by
  unfold decExpPQ
  have hd1 : digitLen 1 = 1 := by decide
  rw [hd1]
  have he0 : (0 : ℤ) ≤ (digitLen n : ℤ) - 1 := by
    have := digitLen_pos n
    omega
  have hge : geTenPow n 1 ((digitLen n : ℤ) - 1) = true := by
    unfold geTenPow
    rw [if_pos he0]
    have ht : ((digitLen n : ℤ) - 1).toNat = digitLen n - 1 := by omega
    rw [ht]
    simpa using pow_digitLen_pred_le h0
  simp [hge]

theorem pyFormatG_int {z : ℤ} (h0 : z ≠ 0) (hlt : z.natAbs < 10 ^ 10) :
    pyFormatG 10 (z : ℚ) = (if z < 0 then ['-'] else []) ++ natDigitsBE z.natAbs := by
  have hnum : ((z : ℚ)).num = z := Rat.num_intCast z
  have hden : ((z : ℚ)).den = 1 := Rat.den_intCast z
  have hv0 : ¬ ((z : ℚ) = 0) := by
    simpa using h0
  set n := z.natAbs with hn
  have hn0 : 0 < n := Int.natAbs_pos.mpr h0
  set L := digitLen n with hL
  have hL1 : 1 ≤ L := digitLen_pos n
  have hL10 : L ≤ 10 := digitLen_le hn0 hlt
  unfold pyFormatG
  rw [if_neg hv0]
  simp only [hnum, hden]
  rw [decExpPQ_int hn0]
  have hk : ((10 : ℕ) : ℤ) - 1 - ((digitLen n : ℤ) - 1) = ((10 - L : ℕ) : ℤ) := by
    push_cast
    omega
  rw [hk]
  have hkt : (((10 - L : ℕ) : ℤ)).toNat = 10 - L := Int.toNat_natCast _
  have hknt : (-((10 - L : ℕ) : ℤ)).toNat = 0 := by
    simp
  rw [hkt, hknt]
  rw [pow_zero, mul_one, roundHalfEvenNat_one]
  have hmlt : n * 10 ^ (10 - L) < 10 ^ 10 := by
    have h1 : n < 10 ^ L := lt_pow_digitLen n
    have h2 : n * 10 ^ (10 - L) < 10 ^ L * 10 ^ (10 - L) :=
      (Nat.mul_lt_mul_right (Nat.pos_pow_of_pos _ (by norm_num))).mpr h1
    rwa [← Nat.pow_add, Nat.add_sub_cancel' hL10] at h2
  rw [if_neg (by omega : ¬ n * 10 ^ (10 - L) = 10 ^ 10)]
  have hbr : (-4 : ℤ) ≤ (digitLen n : ℤ) - 1 ∧ (digitLen n : ℤ) - 1 < ((10 : ℕ) : ℤ) := by
    constructor <;> [omega; (push_cast; omega)]
  rw [if_pos hbr]
  have hds : natDigitsBE (n * 10 ^ (10 - L)) = natDigitsBE n ++ List.replicate (10 - L) '0' :=
    natDigitsBE_mul_pow hn0 _
  rw [hds]
  unfold fixedChars
  rw [if_pos (by omega : (0 : ℤ) ≤ (digitLen n : ℤ) - 1)]
  have htn : ((digitLen n : ℤ) - 1).toNat + 1 = L := by omega
  rw [htn]
  have hlen : (natDigitsBE n).length = L := rfl
  rw [← hlen, List.take_left, List.drop_left, stripTrailingZeros_replicate]
  rw [if_pos rfl]
  by_cases hz : z < 0
  · rw [if_pos (show ((z : ℚ) : ℚ) < 0 from Int.cast_lt_zero.mpr hz), if_pos hz]
    rfl
  · rw [if_neg (fun hc => hz (Int.cast_lt_zero.mp hc)), if_neg hz]
    rfl

theorem dot_not_digit {c : Char} (h : isDigitCh c = true) : c ≠ '.' := by
  intro hc
  subst hc
  exact absurd h (by decide)

theorem underscore_not_digit {c : Char} (h : isDigitCh c = true) : c ≠ '_' := by
  intro hc
  subst hc
  exact absurd h (by decide)

theorem format_float_to_str_int {z : ℤ} (hlt : z.natAbs < 10 ^ 10) :
    format_float_to_str (z : ℚ) = String.mk (intRepr z ++ ['p', '0']) := by
  by_cases h0 : z = 0
  · subst h0
    have : ((0 : ℤ) : ℚ) = 0 := by norm_num
    rw [this]
    decide
  · have hs := pyFormatG_int h0 hlt
    unfold format_float_to_str
    rw [hs]
    have hnodot : ¬ '.' ∈ (if z < 0 then ['-'] else []) ++ natDigitsBE z.natAbs := by
      intro hmem
      rcases List.mem_append.mp hmem with h1 | h1
      · by_cases hz : z < 0 <;> simp [hz] at h1
      · exact absurd rfl (dot_not_digit (natDigitsBE_isDigit h1)).symm
    rw [if_neg hnodot]
    unfold intRepr
    rfl

theorem intRepr_inj {a b : ℤ} (h : intRepr a = intRepr b) : a = b := by
  unfold intRepr at h
  have hhead : ∀ z : ℤ, ∃ c t, natDigitsBE z.natAbs = c :: t ∧ isDigitCh c = true := by
    intro z
    cases hz : natDigitsBE z.natAbs with
    | nil => exact absurd hz (natDigitsBE_ne_nil _)
    | cons c t => exact ⟨c, t, rfl, natDigitsBE_isDigit (hz ▸ List.mem_cons_self c t)⟩
  by_cases ha : a < 0 <;> by_cases hb : b < 0
  · rw [if_pos ha, if_pos hb] at h
    simp only [List.cons_append, List.nil_append, List.cons.injEq] at h
    have := natDigitsBE_injective h.2
    omega
  · rw [if_pos ha, if_neg hb] at h
    obtain ⟨c, t, hct, hcd⟩ := hhead b
    rw [hct] at h
    simp only [List.cons_append, List.nil_append, List.cons.injEq] at h
    have hc : c = '-' := h.1.symm
    subst hc
    exact absurd hcd (by decide)
  · rw [if_neg ha, if_pos hb] at h
    obtain ⟨c, t, hct, hcd⟩ := hhead a
    rw [hct] at h
    simp only [List.cons_append, List.nil_append, List.cons.injEq] at h
    have : c = '-' := h.1
    subst this
    exact absurd hcd (by decide)
  · rw [if_neg ha, if_neg hb] at h
    simp only [List.nil_append] at h
    have := natDigitsBE_injective h
    omega

theorem format_float_to_str_int_inj {a b : ℤ} (ha : a.natAbs < 10 ^ 10)
    (hb : b.natAbs < 10 ^ 10)
    (h : format_float_to_str (a : ℚ) = format_float_to_str (b : ℚ)) : a = b := by
  rw [format_float_to_str_int ha, format_float_to_str_int hb] at h
  injection h with h
  exact intRepr_inj (List.append_cancel_right h)


/-! ## Lemmas: parameter-space expansion -/

theorem pyRange_eq_spec {mn mx st : ℤ} (hst : 0 < st) :
    pyRange mn (mx + 1) st = specRangeValues mn mx st := by
  have hlen : pyRangeLen mn (mx + 1) st = ((mx - mn).fdiv st + 1).toNat := by
    unfold pyRangeLen
    rw [if_pos hst]
    have h2 : mx + 1 - mn + st - 1 = mx - mn + 1 * st := by ring
    rw [h2, Int.fdiv_eq_ediv _ hst.le, Int.fdiv_eq_ediv _ hst.le,
      Int.add_mul_ediv_right _ _ (show st ≠ 0 by omega)]
  unfold pyRange specRangeValues
  rw [hlen]

theorem entryValues_shaped {k : String} {p : PEntry} (h : EntryShaped p) :
    entryValues k p = .ok (specEntryList p) := by
  unfold EntryShaped entryShapedB at h
  rcases hm : p.min? with _ | mn
  · rw [hm] at h
    rcases hv : p.value? with _ | v
    · rw [hv] at h; simp at h
    · simp [entryValues, specEntryList, hm, hv]
  · rcases hx : p.max? with _ | mx
    · rw [hm, hx] at h
      rcases hv : p.value? with _ | v
      · rw [hv] at h; simp at h
      · simp [entryValues, specEntryList, hm, hx, hv]
    · rcases hs : p.step? with _ | st
      · rw [hm, hx, hs] at h
        rcases hv : p.value? with _ | v
        · rw [hv] at h; simp at h
        · simp [entryValues, specEntryList, hm, hx, hs, hv]
      · rw [hm, hx, hs] at h
        have hst : 0 < st := by simpa using h
        simp only [entryValues, specEntryList, hm, hx, hs]
        rw [if_neg (show ¬ st = 0 by omega), pyRange_eq_spec hst]

theorem buildRanges_shaped {ps : List (String × PEntry)}
    (h : ∀ kp ∈ ps, EntryShaped kp.2) :
    buildRanges ps = .ok (ps.map (fun kp => specEntryList kp.2)) := by
  induction ps with
  | nil => rfl
  | cons kp rest ih =>
    obtain ⟨k, p⟩ := kp
    unfold buildRanges
    rw [entryValues_shaped (h (k, p) (List.mem_cons_self _ _)),
      ih (fun x hx => h x (List.mem_cons_of_mem _ hx))]
    rfl

theorem generate_eq_spec {config : Config}
    (h : ∀ kp ∈ config.parameter_space, EntryShaped kp.2) :
    ParameterSpaceModifier.generate config = .ok (specExpand config) := by
  simp only [ParameterSpaceModifier.generate, specExpand]
  rw [buildRanges_shaped h]
  rfl

theorem specRangeValues_length {mn mx st : ℤ} (hst : 0 < st) (hle : mn ≤ mx) :
    (specRangeValues mn mx st).length = ((mx - mn).fdiv st).toNat + 1 := by
  have h1 : (specRangeValues mn mx st).length = ((mx - mn).fdiv st + 1).toNat := by
    simp [specRangeValues]
  have h0 : 0 ≤ (mx - mn).fdiv st := by
    rw [Int.fdiv_eq_ediv _ hst.le]
    exact Int.ediv_nonneg (by omega) hst.le
  omega

theorem specRangeValues_mem {mn mx st v : ℤ} (hst : 0 < st) (hle : mn ≤ mx)
    (h : v ∈ specRangeValues mn mx st) : mn ≤ v ∧ v ≤ mx := by
  unfold specRangeValues at h
  obtain ⟨i, hi, hv⟩ := List.mem_map.mp h
  rw [List.mem_range] at hi
  subst hv
  have h0 : 0 ≤ (mx - mn).fdiv st := by
    rw [Int.fdiv_eq_ediv _ hst.le]
    exact Int.ediv_nonneg (by omega) hst.le
  have hib : (i : ℤ) ≤ (mx - mn).fdiv st := by omega
  have hmul : (i : ℤ) * st ≤ mx - mn := by
    rw [Int.fdiv_eq_ediv _ hst.le] at hib
    exact (Int.le_ediv_iff_mul_le hst).mp hib
  constructor
  · have : 0 ≤ st * (i : ℤ) := by positivity
    omega
  · have : st * (i : ℤ) ≤ mx - mn := by rw [mul_comm]; exact hmul
    omega

/-- The `ValueError` message of `generate` (lines 66-68). -/
def shapeErrMsg (k : String) : String :=
  "For parameter " ++ k ++ ", either min/max/step or value must be defined."

theorem entryValues_not_shaped {k : String} {p : PEntry} (h : ¬ SourceShaped p) :
    entryValues k p = .error (shapeErrMsg k) := by
  unfold SourceShaped at h
  push_neg at h
  unfold entryValues
  have hv : p.value? = none := by
    cases hv : p.value? with
    | none => rfl
    | some v => exact absurd (by simp [hv] : p.value?.isSome = true) h.2
  cases hm : p.min? with
  | none => rw [hv]; rfl
  | some mn =>
    cases hx : p.max? with
    | none => rw [hv]; rfl
    | some mx =>
      cases hs : p.step? with
      | none => rw [hv]; rfl
      | some st =>
        exact absurd (by simp [hs] : p.step?.isSome = true) (h.1 (by simp [hm]) (by simp [hx]))

theorem buildRanges_error {ps pre post : List (String × PEntry)} {k : String} {p : PEntry}
    (hsplit : ps = pre ++ (k, p) :: post)
    (hpre : ∀ kp ∈ pre, ∃ l, entryValues kp.1 kp.2 = .ok l)
    (hbad : ¬ SourceShaped p) :
    buildRanges ps = .error (shapeErrMsg k) := by
  subst hsplit
  induction pre with
  | nil =>
    rw [List.nil_append]
    simp only [buildRanges]
    rw [entryValues_not_shaped hbad]
    rfl
  | cons kp rest ih =>
    obtain ⟨k1, p1⟩ := kp
    obtain ⟨l, hl⟩ := hpre (k1, p1) (List.mem_cons_self _ _)
    rw [List.cons_append]
    simp only [buildRanges]
    rw [hl, ih (fun x hx => hpre x (List.mem_cons_of_mem _ hx))]
    rfl

theorem generate_error {config : Config} {pre post : List (String × PEntry)} {k : String}
    {p : PEntry} (hsplit : config.parameter_space = pre ++ (k, p) :: post)
    (hpre : ∀ kp ∈ pre, ∃ l, entryValues kp.1 kp.2 = .ok l)
    (hbad : ¬ SourceShaped p) :
    ParameterSpaceModifier.generate config = .error (shapeErrMsg k) := by
  simp only [ParameterSpaceModifier.generate]
  rw [buildRanges_error hsplit hpre hbad]
  rfl


/-! ## Concrete fixtures used by claim theorems -/

/-- The expansion example of the claims: `a:{min:0,max:4,step:2}`, `b:{value:10}`. -/
def exampleSpaceConfig : Config :=
  ⟨some "T", some 13, [("a", ⟨some 0, some 4, some 2, none⟩), ("b", PEntry.mkValue 10)], none⟩

/-- A madgraph step instance with default flags. -/
def mgStepEx : MadGraphStep := ⟨⟨none, [], []⟩, true, "run_01"⟩

/-- A snapshot where only madgraph's internal Events file exists (above the
1024-byte threshold) and neither published copy does. -/
def fsEx : FS := [("/sweep/point1/madgraph/Events/run_01/unweighted_events.lhe.gz", 2000)]

/-! ## Claim theorems -/

/-- C1: for every ParameterSpace whose entries each have either the `{value}`
shape or the `{min,max,step}` shape with positive step, expansion yields the
Cartesian product of, per parameter in declaration order, the single fixed
value or the integers from `min` to `max` inclusive stepping by `step` (exactly
`floor((max-min)/step)+1` values, each between `min` and `max`), iterated with
the last-declared parameter varying fastest (`specExpand` is built from
`listProd`, whose first list varies slowest and last list fastest); in
particular `a:{min:0,max:4,step:2}`, `b:{value:10}` yields exactly the points
`{a:0,b:10}, {a:2,b:10}, {a:4,b:10}` in that order. -/
theorem claim_c1_expansion :
    (∀ config : Config, (∀ kp ∈ config.parameter_space, EntryShaped kp.2) →
      ParameterSpaceModifier.generate config = .ok (specExpand config)) ∧
    (∀ mn mx st : ℤ, 0 < st → mn ≤ mx →
      (specRangeValues mn mx st).length = ((mx - mn).fdiv st).toNat + 1 ∧
      ∀ v ∈ specRangeValues mn mx st, mn ≤ v ∧ v ≤ mx) ∧
    ParameterSpaceModifier.generate exampleSpaceConfig =
      .ok [⟨some "T", some 13, [("a", PEntry.mkValue 0), ("b", PEntry.mkValue 10)], none⟩,
        ⟨some "T", some 13, [("a", PEntry.mkValue 2), ("b", PEntry.mkValue 10)], none⟩,
        ⟨some "T", some 13, [("a", PEntry.mkValue 4), ("b", PEntry.mkValue 10)], none⟩] := by
  refine ⟨fun config h => generate_eq_spec h,
    fun mn mx st hst hle =>
      ⟨specRangeValues_length hst hle, fun v hv => specRangeValues_mem hst hle hv⟩,
    by decide⟩

/-- Witness for C1: the refinement and count statements applied at the
claim's own example. -/
theorem claim_c1_expansion_witness :
    ParameterSpaceModifier.generate exampleSpaceConfig = .ok (specExpand exampleSpaceConfig) ∧
    (specRangeValues 0 4 2).length = ((4 - 0 : ℤ).fdiv 2).toNat + 1 :=
  ⟨claim_c1_expansion.1 exampleSpaceConfig (by decide),
    (claim_c1_expansion.2.1 0 4 2 (by decide) (by decide)).1⟩

/-- C8: a parameter entry lacking both shapes (`{value}` and `{min,max,step}`)
fails the whole expansion with a `ValueError` naming the offending parameter
(the first such entry, provided the earlier entries evaluate), and no point
list is produced — the result is the error alone. -/
theorem claim_c8_malformed_entry :
    ∀ (config : Config) (pre post : List (String × PEntry)) (k : String) (p : PEntry),
      config.parameter_space = pre ++ (k, p) :: post →
      (∀ kp ∈ pre, ∃ l, entryValues kp.1 kp.2 = .ok l) →
      ¬ SourceShaped p →
      ParameterSpaceModifier.generate config = .error (shapeErrMsg k) :=
  fun _ _ _ _ _ h1 h2 h3 => generate_error h1 h2 h3

/-- Witness for C8: a two-entry space whose second entry only carries `min`. -/
theorem claim_c8_malformed_entry_witness :
    ParameterSpaceModifier.generate
        ⟨none, none, [("good", PEntry.mkValue 1), ("bad", ⟨some 0, none, none, none⟩)], none⟩ =
      .error "For parameter bad, either min/max/step or value must be defined." :=
  claim_c8_malformed_entry _ [("good", PEntry.mkValue 1)] [] "bad" ⟨some 0, none, none, none⟩
    rfl
    (by
      intro kp hkp
      simp only [List.mem_singleton] at hkp
      subst hkp
      exact ⟨[1], rfl⟩)
    (by decide)

/-- C3: `evaluate_formula` returns an already-numeric value unchanged (both
`int` and `float`), and `evaluate("MSQUARK/4", {MSQUARK: 800})` yields the
numeric result `200.0`. -/
theorem claim_c3_eval_numeric :
    (∀ (n : ℤ) (ps : List (String × PEntry)), evaluate_formula (.int n) ps = .ok (.int n)) ∧
    (∀ (q : ℚ) (ps : List (String × PEntry)), evaluate_formula (.float q) ps = .ok (.float q)) ∧
    evaluate_formula (.str "MSQUARK/4") [("MSQUARK", PEntry.mkValue 800)] = .ok (.float 200) := by
  refine ⟨fun _ _ => rfl, fun _ _ => rfl, ?_⟩
  have hr : evalArithRaw "MSQUARK/4" [("MSQUARK", (800 : ℚ))] = some ⟨800, 4⟩ := by decide
  have h : evalArith "MSQUARK/4" [("MSQUARK", (800 : ℚ))] = some (Frac.toRat ⟨800, 4⟩) := by
    simp [evalArith, hr]
  simp [evaluate_formula, buildLocals, PEntry.mkValue, Except.map, Except.instMonad,
    Except.bind, h, Frac.toRat, Rat.divInt_eq_div]
  norm_num

/-- C4: when the evaluation of a string fails for any reason — unknown name,
malformed expression, division by zero, all collapsed to `evalArith = none` —
`evaluate_formula` returns the original string unchanged instead of raising;
in particular `evaluate("BOGUS*2", {MSQUARK: 800})` returns `"BOGUS*2"`. -/
theorem claim_c4_eval_failure :
    (∀ (s : String) (ps : List (String × PEntry)) (locals : List (String × ℚ)),
      buildLocals ps = .ok locals → evalArith s locals = none →
      evaluate_formula (.str s) ps = .ok (.str s)) ∧
    evaluate_formula (.str "BOGUS*2") [("MSQUARK", PEntry.mkValue 800)] = .ok (.str "BOGUS*2") := by
  constructor
  · intro s ps locals hb he
    simp only [evaluate_formula]
    rw [hb]
    simp [Except.instMonad, Except.bind, he]
  · have hr : evalArithRaw "BOGUS*2" [("MSQUARK", (800 : ℚ))] = none := by decide
    have h : evalArith "BOGUS*2" [("MSQUARK", (800 : ℚ))] = none := by
      simp [evalArith, hr]
    simp [evaluate_formula, buildLocals, PEntry.mkValue, Except.map, Except.instMonad,
      Except.bind, h]

/-- Witness for C4: the failing branch applied at the claim's own example. -/
theorem claim_c4_eval_failure_witness :
    evaluate_formula (.str "2*BOGUS") [("MSQUARK", PEntry.mkValue 800)] = .ok (.str "2*BOGUS") :=
  claim_c4_eval_failure.1 "2*BOGUS" [("MSQUARK", PEntry.mkValue 800)] [("MSQUARK", 800)]
    rfl (by decide)

/-- C10: a value that is neither a number nor a string evaluates to `None` (a
result kind outside the spec's `ResolvedValue`), and the run-card loop of
`MadGraphStep.run` checks for that `None`, skipping the setting with a warning
instead of emitting a `set run_card` line. -/
theorem claim_c10_none_result :
    (∀ ps, evaluate_formula .noneV ps = .ok .noneV) ∧
    (∀ ps, evaluate_formula .other ps = .ok .noneV) ∧
    (∀ (k : String) (v : PyVal) (rest : List (String × PyVal)) (ps : List (String × PEntry)),
      v = .noneV ∨ v = .other →
      mkRunCardLines ((k, v) :: rest) ps =
        (mkRunCardLines rest ps).map (fun lw => (lw.1, (k, v) :: lw.2))) := by
  refine ⟨fun _ => rfl, fun _ => rfl, ?_⟩
  intro k v rest ps hv
  have hev : evaluate_formula v ps = .ok .noneV := by
    rcases hv with rfl | rfl <;> rfl
  simp only [mkRunCardLines, hev]
  cases hrec : mkRunCardLines rest ps with
  | error e => simp [Except.instMonad, Except.bind, Except.map]
  | ok lw => simp [Except.instMonad, Except.bind, Except.map]

/-- Witness for C10: a `None`-valued setting is recorded as a warning and
produces no `set run_card` line. -/
theorem claim_c10_none_result_witness :
    mkRunCardLines [("ptj", PyVal.noneV)] [] =
      (mkRunCardLines [] []).map (fun lw => (lw.1, ("ptj", PyVal.noneV) :: lw.2)) :=
  claim_c10_none_result.2.2 "ptj" PyVal.noneV [] [] (Or.inl rfl)

/-- C6: the runner feeds each step's returned artifact to the next as
`previousOutput` (visible in the invocation trace), and in a 3-step chain where
step 1 returns `P1` and step 2 fails, step 2 is invoked with `P1`, step 3 is
never invoked, and the chain reports `Failed(stepIndex = 1, cause)`. -/
theorem claim_c6_chain_failure :
    ∀ (f1 f2 f3 : Option String → Except String String) (P1 cause : String),
      f1 none = .ok P1 → f2 (some P1) = .error cause →
      PipelineRunner.runChain [f1, f2, f3] = (.Failed 1 cause, [(0, none), (1, some P1)]) := by
  intro f1 f2 f3 P1 cause h1 h2
  simp [PipelineRunner.runChain, runChainAux, h1, h2]

/-- Witness for C6: a concrete 3-step chain with the second step failing. -/
theorem claim_c6_chain_failure_witness :
    PipelineRunner.runChain
        [fun _ => .ok "P1", fun _ => .error "boom", fun _ => .ok "X"] =
      (.Failed 1 "boom", [(0, none), (1, some "P1")]) :=
  claim_c6_chain_failure _ _ _ "P1" "boom" rfl rfl

/-- C2 counterexample: with only madgraph's internal Events file on disk (so
`is_done` is true and the step is configured to skip), `run` returns the empty
string — not the location of the existing artifact — though it spawns nothing. -/
theorem claim_c2_counterexample :
    MadGraphStep.is_done mgStepEx fsEx "/sweep/point1" = true ∧
    MadGraphStep.run mgStepEx (fun _ => none) fsEx ⟨none, none, [], none⟩ "/sweep/point1" none =
      ⟨.ret "", []⟩ ∧
    fsExistsB fsEx "" = false := by
  decide

/-- C2 as amended: a step whose artifact exists and is non-empty (`is_done`)
and which is configured to skip returns without spawning any external process;
delphes returns the existing artifact path, while madgraph returns the
published hepmc copy if present, else the published lhe copy if present, else
the empty string. -/
theorem claim_c2_skip_if_done :
    (∀ (self : DelphesHEPMCStep) (env : String → Option String) (fs : FS)
        (config : Option DelphesConfig) (pd : String) (prev : Option String),
      self.skip_if_done = true → DelphesHEPMCStep.is_done fs pd = true →
      DelphesHEPMCStep.run self env fs config (some pd) prev =
        ⟨.ret (pathJoin (pathJoin pd "delphes_hepmc") "delphes_output.root"), []⟩) ∧
    (∀ (self : MadGraphStep) (env : String → Option String) (fs : FS) (config : Config)
        (pd : String) (prev : Option String),
      self.skip_if_done = true → self.is_done fs pd = true →
      MadGraphStep.run self env fs config pd prev =
        ⟨.ret
          (if fsExistsB fs
              (pathJoin (pathJoin (parentDir pd) "mg5py8_events_hepmc")
                (baseName pd ++ ".hepmc.gz")) then
            pathJoin (pathJoin (parentDir pd) "mg5py8_events_hepmc") (baseName pd ++ ".hepmc.gz")
          else if fsExistsB fs
              (pathJoin (pathJoin (parentDir pd) "mg5_events_lhe")
                (baseName pd ++ ".lhe.gz")) then
            pathJoin (pathJoin (parentDir pd) "mg5_events_lhe") (baseName pd ++ ".lhe.gz")
          else ""), []⟩) := by
  constructor
  · intro self env fs config pd prev hskip hdone
    simp only [DelphesHEPMCStep.run]
    rw [if_pos ⟨hskip, hdone⟩]
  · intro self env fs config pd prev hskip hdone
    simp only [MadGraphStep.run]
    rw [if_pos ⟨hskip, hdone⟩]
    split_ifs <;> rfl

/-- Witness for the amended C2: a delphes skip with an existing non-empty ROOT
output, and the madgraph skip of the counterexample snapshot. -/
theorem claim_c2_skip_if_done_witness :
    DelphesHEPMCStep.run ⟨⟨none⟩, true⟩ (fun _ => none)
        [("/p/x/delphes_hepmc/delphes_output.root", 5)] none (some "/p/x") none =
      ⟨.ret "/p/x/delphes_hepmc/delphes_output.root", []⟩ ∧
    MadGraphStep.run mgStepEx (fun _ => none) fsEx ⟨none, none, [], none⟩ "/sweep/point1" none =
      ⟨.ret "", []⟩ := by
  constructor
  · exact claim_c2_skip_if_done.1 ⟨⟨none⟩, true⟩ (fun _ => none)
      [("/p/x/delphes_hepmc/delphes_output.root", 5)] none "/p/x" none rfl (by decide)
  · have h := claim_c2_skip_if_done.2 mgStepEx (fun _ => none) fsEx ⟨none, none, [], none⟩
      "/sweep/point1" none rfl (by decide)
    rw [h]
    decide


/-! ## Lemmas: character sets of the formatter output -/

theorem mem_dropWhile_mem {p : Char → Bool} {l : List Char} {c : Char}
    (h : c ∈ l.dropWhile p) : c ∈ l := by
  induction l with
  | nil => simp at h
  | cons a t ih =>
    rw [List.dropWhile_cons] at h
    by_cases hp : p a = true
    · simp only [hp, if_true] at h
      exact List.mem_cons_of_mem _ (ih h)
    · simp only [hp, if_false] at h
      exact h

theorem mem_takeWhile_mem {p : Char → Bool} {l : List Char} {c : Char}
    (h : c ∈ l.takeWhile p) : c ∈ l := by
  induction l with
  | nil => simp at h
  | cons a t ih =>
    rw [List.takeWhile_cons] at h
    by_cases hp : p a = true
    · simp only [hp, if_true, List.mem_cons] at h
      rcases h with rfl | h
      · exact List.mem_cons_self _ _
      · exact List.mem_cons_of_mem _ (ih h)
    · simp only [hp, if_false] at h
      simp at h

theorem mem_stripTrailingZeros_mem {l : List Char} {c : Char}
    (h : c ∈ stripTrailingZeros l) : c ∈ l := by
  unfold stripTrailingZeros at h
  rw [List.mem_reverse] at h
  have := mem_dropWhile_mem h
  rwa [List.mem_reverse] at this

theorem stripTrailingZeros_sublist (l : List Char) :
    List.Sublist (stripTrailingZeros l) l := by
  unfold stripTrailingZeros
  have h1 : List.Sublist (l.reverse.dropWhile (fun c => c = '0')) l.reverse := by
    induction l.reverse with
    | nil => simp
    | cons a t ih =>
      rw [List.dropWhile_cons]
      by_cases hp : a = '0'
      · simp only [hp, decide_True, if_true]
        exact (List.dropWhile_sublist _).trans (List.sublist_cons_self _ _)
      · simp [hp]
  simpa using h1.reverse

theorem stripTrailingZeros_getLast {l : List Char} (h : stripTrailingZeros l ≠ []) :
    (stripTrailingZeros l).getLast? ≠ some '0' := by
  unfold stripTrailingZeros at *
  rw [List.getLast?_reverse]
  cases hd : l.reverse.dropWhile (fun c => c = '0') with
  | nil => rw [hd] at h; simp at h
  | cons a t =>
    have hhead := List.head?_dropWhile_not (fun c => c = '0') l.reverse
    rw [hd] at hhead
    simp only [List.head?_cons, Option.some.injEq] at hhead
    simp only [List.head?_cons, ne_eq, Option.some.injEq]
    intro hc
    subst hc
    simp at hhead

/-- Every character `pyFormatG` emits is a digit or one of `-`, `.`, `e`, `+`. -/
theorem pyFormatG_chars {prec : ℕ} {v : ℚ} {c : Char} (h : c ∈ pyFormatG prec v) :
    isDigitCh c = true ∨ c ∈ ['-', '.', 'e', '+'] := by
  have hdigits : ∀ {n : ℕ}, c ∈ natDigitsBE n → isDigitCh c = true ∨ c ∈ ['-', '.', 'e', '+'] :=
    fun hm => Or.inl (natDigitsBE_isDigit hm)
  have hexp : ∀ {e : ℤ}, c ∈ expChars e → isDigitCh c = true ∨ c ∈ ['-', '.', 'e', '+'] := by
    intro e hm
    unfold expChars at hm
    rcases List.mem_cons.mp hm with rfl | hm
    · right; decide
    · rcases List.mem_cons.mp hm with rfl | hm
      · right
        by_cases he : e < 0
        · rw [if_pos he]
          decide
        · rw [if_neg he]
          decide
      · by_cases hn : e.natAbs < 10
        · rw [if_pos hn] at hm
          rcases List.mem_cons.mp hm with rfl | hm
          · left; decide
          · exact hdigits hm
        · rw [if_neg hn] at hm
          exact hdigits hm
  have hfixed : ∀ {ds : List Char} {e : ℤ},
      (∀ x ∈ ds, isDigitCh x = true) → c ∈ fixedChars ds e →
        isDigitCh c = true ∨ c ∈ ['-', '.', 'e', '+'] := by
    intro ds e hds hm
    unfold fixedChars at hm
    by_cases he : (0 : ℤ) ≤ e
    · rw [if_pos he] at hm
      by_cases hfp : stripTrailingZeros (ds.drop (e.toNat + 1)) = []
      · rw [if_pos hfp] at hm
        exact Or.inl (hds c (List.take_subset _ _ hm))
      · rw [if_neg hfp] at hm
        rcases List.mem_append.mp hm with hm | hm
        · exact Or.inl (hds c (List.take_subset _ _ hm))
        · rcases List.mem_cons.mp hm with rfl | hm
          · right; decide
          · exact Or.inl (hds c (List.drop_subset _ _ (mem_stripTrailingZeros_mem hm)))
    · rw [if_neg he] at hm
      by_cases hfp : stripTrailingZeros (List.replicate (-e - 1).toNat '0' ++ ds) = []
      · rw [if_pos hfp] at hm
        left
        rcases List.mem_singleton.mp hm with rfl
        decide
      · rw [if_neg hfp] at hm
        rcases List.mem_cons.mp hm with rfl | hm
        · left; decide
        · rcases List.mem_cons.mp hm with rfl | hm
          · right; decide
          · rcases List.mem_append.mp (mem_stripTrailingZeros_mem hm) with hm | hm
            · left
              rcases List.eq_of_mem_replicate hm with rfl
              decide
            · exact Or.inl (hds c hm)
  have hsci : ∀ {ds : List Char} {e : ℤ},
      (∀ x ∈ ds, isDigitCh x = true) → c ∈ sciChars ds e →
        isDigitCh c = true ∨ c ∈ ['-', '.', 'e', '+'] := by
    intro ds e hds hm
    unfold sciChars at hm
    cases ds with
    | nil =>
      left
      rcases List.mem_singleton.mp hm with rfl
      decide
    | cons d rest =>
      rcases List.mem_append.mp hm with hm | hm
      · by_cases hfp : stripTrailingZeros rest = []
        · rw [if_pos hfp] at hm
          rcases List.mem_singleton.mp hm with rfl
          exact Or.inl (hds _ (List.mem_cons_self _ _))
        · rw [if_neg hfp] at hm
          rcases List.mem_cons.mp hm with rfl | hm
          · exact Or.inl (hds c (List.mem_cons_self _ _))
          · rcases List.mem_cons.mp hm with rfl | hm
            · right; decide
            · exact Or.inl (hds c (List.mem_cons_of_mem _ (mem_stripTrailingZeros_mem hm)))
      · exact hexp hm
  unfold pyFormatG at h
  by_cases hv0 : v = 0
  · rw [if_pos hv0] at h
    left
    rcases List.mem_singleton.mp h with rfl
    decide
  · rw [if_neg hv0] at h
    by_cases hneg : v < 0
    · rw [if_pos hneg] at h
      rcases List.mem_cons.mp h with rfl | h
      · right; decide
      · revert h
        split <;> split <;> intro h
        all_goals first
          | exact hfixed (fun x hx => natDigitsBE_isDigit hx) h
          | exact hsci (fun x hx => natDigitsBE_isDigit hx) h
    · rw [if_neg hneg] at h
      revert h
      split <;> split <;> intro h
      all_goals first
        | exact hfixed (fun x hx => natDigitsBE_isDigit hx) h
        | exact hsci (fun x hx => natDigitsBE_isDigit hx) h


theorem count_dot_of_digits {l : List Char} (h : ∀ x ∈ l, isDigitCh x = true) :
    l.count '.' = 0 :=
  List.count_eq_zero.mpr (fun hm => (dot_not_digit (h _ hm)) rfl)

theorem not_mem_dot_expChars (e : ℤ) : '.' ∉ expChars e := by
  intro h
  unfold expChars at h
  rcases List.mem_cons.mp h with h1 | h
  · exact absurd h1 (by decide)
  · rcases List.mem_cons.mp h with h1 | h
    · by_cases he : e < 0
      · rw [if_pos he] at h1
        exact absurd h1 (by decide)
      · rw [if_neg he] at h1
        exact absurd h1 (by decide)
    · by_cases hn : e.natAbs < 10
      · rw [if_pos hn] at h
        rcases List.mem_cons.mp h with h1 | h
        · exact absurd h1 (by decide)
        · exact (dot_not_digit (natDigitsBE_isDigit h)) rfl
      · rw [if_neg hn] at h
        exact (dot_not_digit (natDigitsBE_isDigit h)) rfl

theorem count_dot_fixedChars {ds : List Char} {e : ℤ}
    (hds : ∀ x ∈ ds, isDigitCh x = true) : (fixedChars ds e).count '.' ≤ 1 := by
  have hzero : ∀ {l : List Char}, (∀ x ∈ l, isDigitCh x = true) → l.count '.' = 0 :=
    fun h => count_dot_of_digits h
  have htake : (List.count '.' (ds.take (e.toNat + 1))) = 0 :=
    hzero (fun x hx => hds x (List.take_subset _ _ hx))
  have hdrop : (List.count '.' (stripTrailingZeros (ds.drop (e.toNat + 1)))) = 0 :=
    hzero (fun x hx => hds x (List.drop_subset _ _ (mem_stripTrailingZeros_mem hx)))
  have hrep : (List.count '.' (stripTrailingZeros (List.replicate (-e - 1).toNat '0' ++ ds))) = 0 := by
    refine hzero ?_
    intro x hx
    rcases List.mem_append.mp (mem_stripTrailingZeros_mem hx) with hm | hm
    · rcases List.eq_of_mem_replicate hm with rfl
      decide
    · exact hds x hm
  simp only [fixedChars]
  split_ifs with h1 h2 h3
  · omega
  · rw [List.count_append, List.count_cons_self, htake, hdrop]
  · simp
  · rw [List.count_cons_of_ne (by decide : ('.' : Char) ≠ '0'), List.count_cons_self, hrep]

theorem count_dot_sciChars {ds : List Char} {e : ℤ}
    (hds : ∀ x ∈ ds, isDigitCh x = true) : (sciChars ds e).count '.' ≤ 1 := by
  have hexp : (expChars e).count '.' = 0 := List.count_eq_zero.mpr (not_mem_dot_expChars e)
  cases ds with
  | nil => simp [sciChars]
  | cons d rest =>
    simp only [sciChars]
    have hd : ('.' : Char) ≠ d := fun hc => (dot_not_digit (hds d (List.mem_cons_self _ _))) hc.symm
    have hrest : (List.count '.' (stripTrailingZeros rest)) = 0 :=
      count_dot_of_digits (fun x hx =>
        hds x (List.mem_cons_of_mem _ (mem_stripTrailingZeros_mem hx)))
    split_ifs with h1
    · rw [List.count_append, hexp, List.count_singleton']
      split_ifs <;> simp
    · rw [List.count_append, hexp, List.count_cons_of_ne hd, List.count_cons_self, hrest]

theorem pyFormatG_count_dot (prec : ℕ) (v : ℚ) : (pyFormatG prec v).count '.' ≤ 1 := by
  simp only [pyFormatG]
  split_ifs
  all_goals try rw [List.count_cons_of_ne (by decide : ('.' : Char) ≠ '-')]
  all_goals first
    | exact count_dot_fixedChars (fun x hx => natDigitsBE_isDigit hx)
    | exact count_dot_sciChars (fun x hx => natDigitsBE_isDigit hx)
    | decide

theorem dropWhile_ne_eq_cons {l : List Char} {c : Char} (h : c ∈ l) :
    ∃ t, l.dropWhile (fun x => x ≠ c) = c :: t := by
  induction l with
  | nil => simp at h
  | cons a rest ih =>
    rw [List.dropWhile_cons]
    by_cases hac : a = c
    · subst hac
      simp
    · have hc : c ∈ rest := by
        rcases List.mem_cons.mp h with rfl | hm
        · exact absurd rfl hac
        · exact hm
      have hd : (decide (a ≠ c)) = true := by simpa using hac
      rw [hd]
      simpa using ih hc

theorem mem_format_cases {v : ℚ} {c : Char} (h : c ∈ (format_float_to_str v).data) :
    c = 'p' ∨ c = '0' ∨ c ∈ pyFormatG 10 v := by
  unfold format_float_to_str at h
  by_cases hdot : '.' ∈ pyFormatG 10 v
  · rw [if_pos hdot] at h
    have h2 : c ∈ (pyFormatG 10 v).takeWhile (fun x => x ≠ '.') ++ 'p' ::
        (if stripTrailingZeros (((pyFormatG 10 v).dropWhile (fun x => x ≠ '.')).tail) = []
         then ['0']
         else stripTrailingZeros (((pyFormatG 10 v).dropWhile (fun x => x ≠ '.')).tail)) := h
    rcases List.mem_append.mp h2 with hm | hm
    · exact Or.inr (Or.inr (mem_takeWhile_mem hm))
    · rcases List.mem_cons.mp hm with rfl | hm
      · exact Or.inl rfl
      · split_ifs at hm with hif
        · rcases List.mem_singleton.mp hm with rfl
          exact Or.inr (Or.inl rfl)
        · have h3 := mem_dropWhile_mem (List.mem_of_mem_tail (mem_stripTrailingZeros_mem hm))
          exact Or.inr (Or.inr h3)
  · rw [if_neg hdot] at h
    have h2 : c ∈ pyFormatG 10 v ++ ['p', '0'] := h
    rcases List.mem_append.mp h2 with hm | hm
    · exact Or.inr (Or.inr hm)
    · rcases List.mem_cons.mp hm with rfl | hm
      · exact Or.inl rfl
      · rcases List.mem_singleton.mp hm with rfl
        exact Or.inr (Or.inl rfl)

theorem format_no_underscore (v : ℚ) : '_' ∉ (format_float_to_str v).data := by
  intro h
  rcases mem_format_cases h with h1 | h1 | h1
  · exact absurd h1 (by decide)
  · exact absurd h1 (by decide)
  · rcases pyFormatG_chars h1 with h2 | h2
    · exact absurd h2 (by decide)
    · exact absurd h2 (by decide)

theorem pyFormatG_no_p (v : ℚ) {c : Char} (h : c ∈ pyFormatG 10 v) : c ≠ 'p' := by
  intro hc
  subst hc
  rcases pyFormatG_chars h with h2 | h2
  · exact absurd h2 (by decide)
  · exact absurd h2 (by decide)

theorem format_no_dot (v : ℚ) : '.' ∉ (format_float_to_str v).data := by
  intro h
  unfold format_float_to_str at h
  by_cases hdot : '.' ∈ pyFormatG 10 v
  · rw [if_pos hdot] at h
    obtain ⟨t, ht⟩ := dropWhile_ne_eq_cons hdot
    have hsplit : (pyFormatG 10 v).takeWhile (fun x => x ≠ '.') ++ '.' :: t = pyFormatG 10 v := by
      rw [← ht]
      exact List.takeWhile_append_dropWhile _ _
    have hcount : ('.' :: t).count '.' ≤ (pyFormatG 10 v).count '.' := by
      rw [← hsplit, List.count_append]
      omega
    have htcount : t.count '.' = 0 := by
      have h1 := pyFormatG_count_dot 10 v
      rw [List.count_cons_self] at hcount
      omega
    have hnot_t : '.' ∉ t := by
      rw [← List.count_eq_zero]
      exact htcount
    have h2 : '.' ∈ (pyFormatG 10 v).takeWhile (fun x => x ≠ '.') ++ 'p' ::
        (if stripTrailingZeros (((pyFormatG 10 v).dropWhile (fun x => x ≠ '.')).tail) = []
         then ['0']
         else stripTrailingZeros (((pyFormatG 10 v).dropWhile (fun x => x ≠ '.')).tail)) := h
    rcases List.mem_append.mp h2 with hm | hm
    · have := List.mem_takeWhile_imp hm
      simp at this
    · rcases List.mem_cons.mp hm with hp | hm
      · exact absurd hp (by decide)
      · split_ifs at hm with hif
        · exact absurd (List.mem_singleton.mp hm) (by decide)
        · have h3 : '.' ∈ (((pyFormatG 10 v).dropWhile (fun x => x ≠ '.')).tail) :=
            mem_stripTrailingZeros_mem hm
          rw [ht] at h3
          exact hnot_t h3
  · rw [if_neg hdot] at h
    have h2 : '.' ∈ pyFormatG 10 v ++ ['p', '0'] := h
    rcases List.mem_append.mp h2 with hm | hm
    · exact hdot hm
    · rcases List.mem_cons.mp hm with hp | hm
      · exact absurd hp (by decide)
      · exact absurd (List.mem_singleton.mp hm) (by decide)

theorem format_split (v : ℚ) :
    ∃ pre post, (format_float_to_str v).data = pre ++ 'p' :: post ∧ 'p' ∉ pre ∧
      post ≠ [] ∧ (post = ['0'] ∨ post.getLast? ≠ some '0') := by
  unfold format_float_to_str
  by_cases hdot : '.' ∈ pyFormatG 10 v
  · rw [if_pos hdot]
    refine ⟨(pyFormatG 10 v).takeWhile (fun x => x ≠ '.'),
      (if stripTrailingZeros (((pyFormatG 10 v).dropWhile (fun x => x ≠ '.')).tail) = []
       then ['0']
       else stripTrailingZeros (((pyFormatG 10 v).dropWhile (fun x => x ≠ '.')).tail)),
      rfl, ?_, ?_, ?_⟩
    · intro hm
      exact pyFormatG_no_p v (mem_takeWhile_mem hm) rfl
    · split_ifs with hif
      · simp
      · exact hif
    · split_ifs with hif
      · exact Or.inl rfl
      · exact Or.inr (stripTrailingZeros_getLast hif)
  · rw [if_neg hdot]
    refine ⟨pyFormatG 10 v, ['0'], rfl, ?_, by simp, Or.inl rfl⟩
    intro hm
    exact pyFormatG_no_p v hm rfl

/-- C9: the compact scalar encoding replaces the decimal point with the
separator `p` (the output never contains `.`), strips trailing zero characters
after the separator but leaves at least one (the part after the final
separator is `"0"` or does not end in `0`), and is a pure function of the
value; in particular `encode(125.5) = "125p5"`, `encode(125.0) = "125p0"` and
`encode(13.0) = "13p0"`. -/
theorem claim_c9_compact_encoding :
    format_float_to_str 125.5 = "125p5" ∧
    format_float_to_str 125.0 = "125p0" ∧
    format_float_to_str 13.0 = "13p0" ∧
    (∀ v : ℚ, '.' ∉ (format_float_to_str v).data) ∧
    (∀ v : ℚ, ∃ pre post, (format_float_to_str v).data = pre ++ 'p' :: post ∧ 'p' ∉ pre ∧
      post ≠ [] ∧ (post = ['0'] ∨ post.getLast? ≠ some '0')) := by
  refine ⟨?_, ?_, ?_, format_no_dot, format_split⟩
  · have h : (125.5 : ℚ) = (⟨251, 2, by norm_num, by norm_num⟩ : ℚ) := by
      rw [Rat.mk'_eq_divInt, Rat.divInt_eq_div]
      norm_num
    rw [h]
    decide
  · have h : (125.0 : ℚ) = (125 : ℚ) := by norm_num
    rw [h]
    decide
  · have h : (13.0 : ℚ) = (13 : ℚ) := by norm_num
    rw [h]
    decide


/-! ## Lemmas: structure of generated points -/

theorem generate_ok_inv {config : Config} {pts : List Config}
    (h : ParameterSpaceModifier.generate config = .ok pts) :
    ∃ rs, buildRanges config.parameter_space = .ok rs ∧
      pts = (listProd rs).map (fun vs =>
        { config with parameter_space :=
            (config.parameter_space.map Prod.fst).zip (vs.map PEntry.mkValue) }) := by
  simp only [ParameterSpaceModifier.generate] at h
  cases hb : buildRanges config.parameter_space with
  | error e =>
    rw [hb] at h
    simp [Except.instMonad, Except.bind] at h
  | ok rs =>
    rw [hb] at h
    simp only [Except.instMonad, Except.bind, Except.ok.injEq] at h
    exact ⟨rs, rfl, h.symm⟩

theorem buildRanges_ok {ps : List (String × PEntry)} {rs : List (List ℚ)}
    (h : buildRanges ps = .ok rs) :
    List.Forall₂ (fun kp r => entryValues kp.1 kp.2 = .ok r) ps rs := by
  induction ps generalizing rs with
  | nil =>
    simp only [buildRanges, Except.ok.injEq] at h
    subst h
    exact List.Forall₂.nil
  | cons kp rest ih =>
    obtain ⟨k, p⟩ := kp
    simp only [buildRanges] at h
    cases he : entryValues k p with
    | error e =>
      rw [he] at h
      simp [Except.instMonad, Except.bind] at h
    | ok r =>
      rw [he] at h
      cases hb : buildRanges rest with
      | error e =>
        rw [hb] at h
        simp [Except.instMonad, Except.bind] at h
      | ok rs2 =>
        rw [hb] at h
        simp only [Except.instMonad, Except.bind, Except.ok.injEq] at h
        subst h
        exact List.Forall₂.cons he (ih hb)

theorem mem_listProd {ls : List (List ℚ)} {vs : List ℚ} (h : vs ∈ listProd ls) :
    List.Forall₂ (fun v l => v ∈ l) vs ls := by
  induction ls generalizing vs with
  | nil =>
    simp only [listProd, List.mem_singleton] at h
    subst h
    exact List.Forall₂.nil
  | cons l ls ih =>
    simp only [listProd] at h
    rw [List.mem_flatMap] at h
    obtain ⟨x, hx, hm⟩ := h
    rw [List.mem_map] at hm
    obtain ⟨vs2, hvs2, rfl⟩ := hm
    exact List.Forall₂.cons hx (ih hvs2)

theorem entryValues_ok_cases {k : String} {p : PEntry} {r : List ℚ}
    (h : entryValues k p = .ok r) :
    (∃ v, r = [v]) ∨
    (∃ mn mx st, p.min? = some mn ∧ p.max? = some mx ∧ p.step? = some st ∧ st ≠ 0 ∧
      r = (pyRange mn (mx + 1) st).map (fun (z : ℤ) => (z : ℚ))) := by
  rcases hm : p.min? with _ | mn
  · rcases hv : p.value? with _ | v
    · simp [entryValues, hm, hv] at h
    · simp [entryValues, hm, hv] at h
      exact Or.inl ⟨v, h.symm⟩
  · rcases hx : p.max? with _ | mx
    · rcases hv : p.value? with _ | v
      · simp [entryValues, hm, hx, hv] at h
      · simp [entryValues, hm, hx, hv] at h
        exact Or.inl ⟨v, h.symm⟩
    · rcases hs : p.step? with _ | st
      · rcases hv : p.value? with _ | v
        · simp [entryValues, hm, hx, hs, hv] at h
        · simp [entryValues, hm, hx, hs, hv] at h
          exact Or.inl ⟨v, h.symm⟩
      · by_cases hst : st = 0
        · simp [entryValues, hm, hx, hs, hst] at h
        · simp [entryValues, hm, hx, hs, hst] at h
          exact Or.inr ⟨mn, mx, st, rfl, rfl, rfl, hst, h.symm⟩

theorem pyRange_mem_between {mn mx st v : ℤ} (hst : st ≠ 0)
    (h : v ∈ pyRange mn (mx + 1) st) :
    (mn ≤ v ∧ v ≤ mx) ∨ (mx < v ∧ v ≤ mn) := by
  rcases lt_or_gt_of_ne hst with hneg | hpos
  · -- negative step: the range descends from mn, staying strictly above mx + 1 - 1
    unfold pyRange pyRangeLen at h
    rw [if_neg (by omega : ¬ 0 < st), if_pos hneg] at h
    obtain ⟨i, hi, hv⟩ := List.mem_map.mp h
    rw [List.mem_range] at hi
    subst hv
    set t : ℤ := -st with ht
    have ht0 : 0 < t := by omega
    have hlen : mn - (mx + 1) - st - 1 = (mn - mx - 2) + 1 * t := by omega
    rw [hlen, Int.fdiv_eq_ediv _ ht0.le, Int.add_mul_ediv_right _ _ (by omega : t ≠ 0)] at hi
    have hible : (i : ℤ) ≤ (mn - mx - 2) / t := by omega
    have hmul : (i : ℤ) * t ≤ mn - mx - 2 := (Int.le_ediv_iff_mul_le ht0).mp hible
    have hnn : 0 ≤ (i : ℤ) * t := by positivity
    right
    constructor
    · have : st * (i : ℤ) = -((i : ℤ) * t) := by rw [ht]; ring
      omega
    · have : st * (i : ℤ) = -((i : ℤ) * t) := by rw [ht]; ring
      omega
  · rw [pyRange_eq_spec hpos] at h
    by_cases hle : mn ≤ mx
    · exact Or.inl (specRangeValues_mem hpos hle h)
    · exfalso
      unfold specRangeValues at h
      obtain ⟨i, hi, _⟩ := List.mem_map.mp h
      rw [List.mem_range] at hi
      have hfd : (mx - mn).fdiv st < 0 := by
        rw [Int.fdiv_eq_ediv _ hpos.le]
        by_contra hc
        push_neg at hc
        have := (Int.le_ediv_iff_mul_le hpos).mp hc
        omega
      omega


theorem zip_mkValue_inj {keys : List String} {vs1 vs2 : List ℚ}
    (h1 : vs1.length = keys.length) (h2 : vs2.length = keys.length)
    (h : keys.zip (vs1.map PEntry.mkValue) = keys.zip (vs2.map PEntry.mkValue)) :
    vs1 = vs2 := by
  induction keys generalizing vs1 vs2 with
  | nil =>
    cases vs1 with
    | nil =>
      cases vs2 with
      | nil => rfl
      | cons b t2 => simp at h2
    | cons a t1 => simp at h1
  | cons k ks ih =>
    cases vs1 with
    | nil => simp at h1
    | cons a t1 =>
      cases vs2 with
      | nil => simp at h2
      | cons b t2 =>
        simp only [List.map_cons, List.zip_cons_cons, List.cons.injEq, Prod.mk.injEq] at h
        have hab : a = b := by
          have h3 := h.1.2
          simpa [PEntry.mkValue] using h3
        subst hab
        have ht := ih (by simpa using h1) (by simpa using h2) h.2
        rw [ht]

theorem valuesOf_zip {keys : List String} {vs : List ℚ} (h : keys.length = vs.length) :
    valuesOf (keys.zip (vs.map PEntry.mkValue)) = some vs := by
  induction keys generalizing vs with
  | nil =>
    cases vs with
    | nil => rfl
    | cons a t => simp at h
  | cons k ks ih =>
    cases vs with
    | nil => simp at h
    | cons a t =>
      simp only [List.map_cons, List.zip_cons_cons, valuesOf, PEntry.mkValue]
      rw [show List.zipWith Prod.mk ks (List.map PEntry.mkValue t) =
        ks.zip (List.map PEntry.mkValue t) from rfl]
      rw [ih (by simpa using h)]
      rfl

theorem append_sep_inj {c : Char} : ∀ {a b r1 r2 : List Char}, c ∉ a → c ∉ b →
    a ++ c :: r1 = b ++ c :: r2 → a = b ∧ r1 = r2 := by
  intro a
  induction a with
  | nil =>
    intro b r1 r2 _ hb h
    cases b with
    | nil => simpa using h
    | cons x xs =>
      simp only [List.nil_append, List.cons_append, List.cons.injEq] at h
      exact absurd (h.1 ▸ List.mem_cons_self x xs) hb
  | cons y ys ih =>
    intro b r1 r2 ha hb h
    cases b with
    | nil =>
      simp only [List.cons_append, List.nil_append, List.cons.injEq] at h
      exact absurd (h.1 ▸ List.mem_cons_self y ys) ha
    | cons x xs =>
      simp only [List.cons_append, List.cons.injEq] at h
      obtain ⟨rfl, h2⟩ := h
      have hr := ih (fun hc => ha (List.mem_cons_of_mem _ hc))
        (fun hc => hb (List.mem_cons_of_mem _ hc)) h2
      exact ⟨by rw [hr.1], hr.2⟩

theorem mem_joinUnderscore {ls : List (List Char)} {c : Char} (h : c ∈ joinUnderscore ls) :
    c = '_' ∨ ∃ x ∈ ls, c ∈ x := by
  induction ls with
  | nil => simp [joinUnderscore] at h
  | cons x xs ih =>
    cases xs with
    | nil =>
      refine Or.inr ⟨x, List.mem_cons_self _ _, ?_⟩
      simpa [joinUnderscore] using h
    | cons y ys =>
      simp only [joinUnderscore] at h
      rcases List.mem_append.mp h with hm | hm
      · exact Or.inr ⟨x, List.mem_cons_self _ _, hm⟩
      · rcases List.mem_cons.mp hm with rfl | hm
        · exact Or.inl rfl
        · rcases ih hm with h1 | ⟨z, hz, hcz⟩
          · exact Or.inl h1
          · exact Or.inr ⟨z, List.mem_cons_of_mem _ hz, hcz⟩

theorem joinUnderscore_inj : ∀ {as bs : List (List Char)}, as.length = bs.length →
    (∀ x ∈ as, '_' ∉ x) → (∀ x ∈ bs, '_' ∉ x) →
    joinUnderscore as = joinUnderscore bs → as = bs := by
  intro as
  induction as with
  | nil =>
    intro bs hlen _ _ _
    cases bs with
    | nil => rfl
    | cons b bs2 => simp at hlen
  | cons a as2 ih =>
    intro bs hlen ha hb h
    cases bs with
    | nil => simp at hlen
    | cons b bs2 =>
      cases as2 with
      | nil =>
        cases bs2 with
        | nil =>
          simp only [joinUnderscore] at h
          rw [h]
        | cons b2 bs3 => simp at hlen
      | cons a2 as3 =>
        cases bs2 with
        | nil => simp at hlen
        | cons b2 bs3 =>
          simp only [joinUnderscore] at h
          have hsep := append_sep_inj (ha a (List.mem_cons_self _ _))
            (hb b (List.mem_cons_self _ _)) h
          have hrest := ih (by simpa using hlen)
            (fun x hx => ha x (List.mem_cons_of_mem _ hx))
            (fun x hx => hb x (List.mem_cons_of_mem _ hx)) hsep.2
          rw [hsep.1, hrest]

theorem modify_point {cfg : Config} {keys : List String} {vs : List ℚ} {en : ℚ}
    (hen : cfg.energy = some en) (hlen : keys.length = vs.length) :
    JobNameModifier.modify { cfg with parameter_space := keys.zip (vs.map PEntry.mkValue) } =
      some { cfg with
        parameter_space := keys.zip (vs.map PEntry.mkValue)
        job_name := some ((cfg.topology.getD "unknown") ++ "." ++
          String.mk (joinUnderscore (vs.map (fun v => (format_float_to_str v).data))) ++ "." ++
          format_float_to_str en) } := by
  simp only [JobNameModifier.modify]
  rw [show ({ cfg with parameter_space := keys.zip (vs.map PEntry.mkValue) } : Config).energy =
    some en from hen]
  rw [valuesOf_zip hlen]
  rfl

theorem jobNameOf_point {cfg : Config} {keys : List String} {vs : List ℚ} {en : ℚ}
    (hen : cfg.energy = some en) (hlen : keys.length = vs.length) :
    jobNameOf { cfg with parameter_space := keys.zip (vs.map PEntry.mkValue) } =
      some ((cfg.topology.getD "unknown") ++ "." ++
        String.mk (joinUnderscore (vs.map (fun v => (format_float_to_str v).data))) ++ "." ++
        format_float_to_str en) := by
  unfold jobNameOf
  rw [modify_point hen hlen]
  rfl


/-! ## C5: job-name uniqueness -/

/-- A sweep over an 11-digit range: `%.10g` collapses neighbouring values. -/
def c5Config : Config :=
  ⟨some "T", some 13, [("a", ⟨some 10000000001, some 10000000002, some 1, none⟩)], none⟩

/-- The first point of `c5Config`. -/
def c5PointA : Config := ⟨some "T", some 13, [("a", PEntry.mkValue 10000000001)], none⟩

/-- The second point of `c5Config`. -/
def c5PointB : Config := ⟨some "T", some 13, [("a", PEntry.mkValue 10000000002)], none⟩

/-- C5 counterexample: two distinct points of the same expansion (same topology
and energy) receive the same job name `T.1e+10p0.13p0` — `f"{v:.10g}"` rounds
both 10000000001 and 10000000002 to `1e+10`, so the encoding is not injective
and the claim as stated fails. -/
theorem claim_c5_counterexample :
    ParameterSpaceModifier.generate c5Config = .ok [c5PointA, c5PointB] ∧
    c5PointA ≠ c5PointB ∧
    jobNameOf c5PointA = some "T.1e+10p0.13p0" ∧
    jobNameOf c5PointB = some "T.1e+10p0.13p0" := by
  decide

/-- C5 as amended: distinct points of the same expansion receive distinct job
names, provided the configuration's energy is present and every range bound
(`min` and `max`) has absolute value below 10^10, i.e. fits in the ten
significant digits of the `%.10g` rendering. -/
theorem claim_c5_uniqueness :
    ∀ (cfg : Config) (pts : List Config) (c1 c2 : Config) (en : ℚ),
      ParameterSpaceModifier.generate cfg = .ok pts →
      cfg.energy = some en →
      c1 ∈ pts → c2 ∈ pts → c1 ≠ c2 →
      (∀ kp ∈ cfg.parameter_space, ∀ mn ∈ kp.2.min?, mn.natAbs < 10 ^ 10) →
      (∀ kp ∈ cfg.parameter_space, ∀ mx ∈ kp.2.max?, mx.natAbs < 10 ^ 10) →
      jobNameOf c1 ≠ jobNameOf c2 := by
  intro cfg pts c1 c2 en hgen hen h1 h2 hne hbmin hbmax
  obtain ⟨rs, hb, rfl⟩ := generate_ok_inv hgen
  obtain ⟨vs1, hvs1, rfl⟩ := List.mem_map.mp h1
  obtain ⟨vs2, hvs2, rfl⟩ := List.mem_map.mp h2
  have hf1 := mem_listProd hvs1
  have hf2 := mem_listProd hvs2
  have hfb := buildRanges_ok hb
  have hlen1 : vs1.length = rs.length := hf1.length_eq
  have hlen2 : vs2.length = rs.length := hf2.length_eq
  have hlenb : cfg.parameter_space.length = rs.length := hfb.length_eq
  have hvne : vs1 ≠ vs2 := by
    intro he
    exact hne (by rw [he])
  have hex : ¬ (∀ (i : ℕ) (hi1 : i < vs1.length) (hi2 : i < vs2.length),
      vs1.get ⟨i, hi1⟩ = vs2.get ⟨i, hi2⟩) := by
    intro hall
    exact hvne (List.ext_get (by omega) hall)
  push_neg at hex
  obtain ⟨i, hi1, hi2, hget⟩ := hex
  have hirs : i < rs.length := by omega
  have hips : i < cfg.parameter_space.length := by omega
  have hmem1 : vs1.get ⟨i, hi1⟩ ∈ rs.get ⟨i, hirs⟩ :=
    (List.forall₂_iff_get.mp hf1).2 i hi1 hirs
  have hmem2 : vs2.get ⟨i, hi2⟩ ∈ rs.get ⟨i, hirs⟩ :=
    (List.forall₂_iff_get.mp hf2).2 i hi2 hirs
  have hev : entryValues (cfg.parameter_space.get ⟨i, hips⟩).1
      (cfg.parameter_space.get ⟨i, hips⟩).2 = .ok (rs.get ⟨i, hirs⟩) :=
    (List.forall₂_iff_get.mp hfb).2 i hips hirs
  have hfmt : format_float_to_str (vs1.get ⟨i, hi1⟩) ≠
      format_float_to_str (vs2.get ⟨i, hi2⟩) := by
    rcases entryValues_ok_cases hev with ⟨v, hv⟩ | ⟨mn, mx, st, hm, hx, hs, hst, hr⟩
    · rw [hv] at hmem1 hmem2
      simp only [List.mem_singleton] at hmem1 hmem2
      exact absurd (hmem1.trans hmem2.symm) hget
    · rw [hr] at hmem1 hmem2
      obtain ⟨z1, hz1m, hz1⟩ := List.mem_map.mp hmem1
      obtain ⟨z2, hz2m, hz2⟩ := List.mem_map.mp hmem2
      have hkp := List.get_mem cfg.parameter_space i hips
      have hbn : mn.natAbs < 10 ^ 10 := hbmin _ hkp mn (by rw [hm]; rfl)
      have hbx : mx.natAbs < 10 ^ 10 := hbmax _ hkp mx (by rw [hx]; rfl)
      have hz1b := pyRange_mem_between hst hz1m
      have hz2b := pyRange_mem_between hst hz2m
      have h1b : z1.natAbs < 10 ^ 10 := by omega
      have h2b : z2.natAbs < 10 ^ 10 := by omega
      have hzne : z1 ≠ z2 := by
        intro hzz
        apply hget
        rw [← hz1, ← hz2, hzz]
      intro hfe
      rw [← hz1, ← hz2] at hfe
      exact hzne (format_float_to_str_int_inj h1b h2b hfe)
  intro hcontra
  rw [jobNameOf_point hen (by rw [List.length_map]; omega),
    jobNameOf_point hen (by rw [List.length_map]; omega)] at hcontra
  injection hcontra with hname
  have hdata := congrArg String.data hname
  have hdot : (String.data ".") = ['.'] := rfl
  simp only [String.data_append, hdot, List.append_assoc] at hdata
  have hstep1 := List.append_cancel_left hdata
  simp only [List.singleton_append, List.cons.injEq, true_and] at hstep1
  have hnodotJ : ∀ (vs : List ℚ), '.' ∉
      joinUnderscore (vs.map (fun v => (format_float_to_str v).data)) := by
    intro vs hc
    rcases mem_joinUnderscore hc with h0 | ⟨x, hxm, hcx⟩
    · exact absurd h0 (by decide)
    · obtain ⟨v, _, rfl⟩ := List.mem_map.mp hxm
      exact format_no_dot v hcx
  have hJ := (append_sep_inj (hnodotJ vs1) (hnodotJ vs2) hstep1).1
  have hT := joinUnderscore_inj
    (by rw [List.length_map, List.length_map]; omega)
    (by
      intro x hx
      obtain ⟨v, _, rfl⟩ := List.mem_map.mp hx
      exact format_no_underscore v)
    (by
      intro x hx
      obtain ⟨v, _, rfl⟩ := List.mem_map.mp hx
      exact format_no_underscore v)
    hJ
  obtain ⟨hlenT, hgetT⟩ := List.ext_get_iff.mp hT
  have hgT := hgetT i (by rw [List.length_map]; omega) (by rw [List.length_map]; omega)
  rw [List.get_eq_getElem, List.get_eq_getElem, List.getElem_map, List.getElem_map] at hgT
  apply hfmt
  have hs1 : ∀ (s t : String), s.data = t.data → s = t := by
    intro s t hst
    cases s
    cases t
    exact congrArg String.mk hst
  exact hs1 _ _ hgT

/-- Witness for the amended C5: a two-point sweep over a small range yields
distinct job names. -/
theorem claim_c5_uniqueness_witness :
    jobNameOf ⟨some "T", some 13, [("a", PEntry.mkValue 0)], none⟩ ≠
      jobNameOf ⟨some "T", some 13, [("a", PEntry.mkValue 1)], none⟩ :=
  claim_c5_uniqueness ⟨some "T", some 13, [("a", ⟨some 0, some 1, some 1, none⟩)], none⟩
    [⟨some "T", some 13, [("a", PEntry.mkValue 0)], none⟩,
     ⟨some "T", some 13, [("a", PEntry.mkValue 1)], none⟩]
    ⟨some "T", some 13, [("a", PEntry.mkValue 0)], none⟩
    ⟨some "T", some 13, [("a", PEntry.mkValue 1)], none⟩
    13 (by decide) rfl (by decide) (by decide) (by decide)
    (by
      intro kp hkp mn hmn
      simp only [List.mem_singleton] at hkp
      subst hkp
      simp only [Option.mem_def, Option.some.injEq] at hmn
      omega)
    (by
      intro kp hkp mx hmx
      simp only [List.mem_singleton] at hkp
      subst hkp
      simp only [Option.mem_def, Option.some.injEq] at hmx
      omega)

end Valrep
